import Mathlib

/-!
Verification of the message retrieval and conversation-segmentation engine of
the whatsapp-wrapped repository (src/search.py, src/features.py, with the
BM25Okapi index of the rank_bm25 dependency that src/search.py builds).

Modelling conventions:
- Python floats are modelled as real numbers (scores, idf values) or as exact
  rationals where the source only ever produces rationals (timestamps, the
  engagement score in features.py).
- Python object identity, id(message), is modelled by the position of the
  message in the corpus list: the searcher hands out references into
  self.messages, so two results refer to the same object exactly when they
  carry the same corpus index.
- numpy argsort (default kind) degenerates to a stable insertion sort for the
  array sizes appearing in every concrete input below (introsort switches to
  insertion sort under 16 elements), and Python list.sort and sorted are
  documented stable; both are modelled as the unique permutation sorted by
  the lexicographic key (key value, pre-sort position).
- The embedding provider (lm_studio.py wraps a network service) and the regex
  engine of the re module are external collaborators; they enter as explicit
  parameters: a Provider record whose calls can fail, and a compile oracle
  returning none exactly when re.compile raises re.error.
-/

namespace WhatsappWrapped

/-- parser.Message: timestamp (seconds, second precision), sender, content,
media and edited flags. -/
structure Message where
  timestamp : ℚ
  sender : String
  content : String
  media : Bool := false
  edited : Bool := false
deriving DecidableEq, Inhabited, Repr

/-- parser.Chat: the message list and the participant names. -/
structure Chat where
  messages : List Message
  participants : List String
deriving DecidableEq, Inhabited, Repr

/-- search.SearchResult. The message reference is modelled by its corpus
index (Python object identity), see the header comment. -/
structure SearchResult where
  idx : ℕ
  score : ℝ
  method : String
deriving Inhabited

/-! ## Stable sorting infrastructure

numpy argsort and Python stable sorts are modelled as the unique permutation
of positions sorted by the lexicographic key (key value, position). -/

/-- Ascending stable comparison of positions `i j` under `keys`:
strictly smaller key, or equal keys and `i` before `j`. -/
def ascRel {κ : Type} [LinearOrder κ] [Zero κ] (keys : List κ) (i j : ℕ) : Prop :=
  keys.getD i 0 < keys.getD j 0 ∨ (keys.getD i 0 = keys.getD j 0 ∧ i ≤ j)

/-- Descending stable comparison of positions `i j` under `keys`:
strictly larger key, or equal keys and `i` before `j`. -/
def descRel {κ : Type} [LinearOrder κ] [Zero κ] (keys : List κ) (i j : ℕ) : Prop :=
  keys.getD j 0 < keys.getD i 0 ∨ (keys.getD i 0 = keys.getD j 0 ∧ i ≤ j)

instance ascRel_decidable {κ : Type} [LinearOrder κ] [Zero κ] (keys : List κ) :
    DecidableRel (ascRel keys) := fun _ _ => by unfold ascRel; infer_instance

instance descRel_decidable {κ : Type} [LinearOrder κ] [Zero κ] (keys : List κ) :
    DecidableRel (descRel keys) := fun _ _ => by unfold descRel; infer_instance

instance ascRel_total {κ : Type} [LinearOrder κ] [Zero κ] (keys : List κ) :
    IsTotal ℕ (ascRel keys) := by
  constructor
  intro i j
  rcases lt_trichotomy (keys.getD i 0) (keys.getD j 0) with h | h | h
  · exact Or.inl (Or.inl h)
  · rcases Nat.le_total i j with hij | hij
    · exact Or.inl (Or.inr ⟨h, hij⟩)
    · exact Or.inr (Or.inr ⟨h.symm, hij⟩)
  · exact Or.inr (Or.inl h)

instance ascRel_trans {κ : Type} [LinearOrder κ] [Zero κ] (keys : List κ) :
    IsTrans ℕ (ascRel keys) := by
  constructor
  intro i j k hij hjk
  rcases hij with h1 | ⟨h1, h1'⟩ <;> rcases hjk with h2 | ⟨h2, h2'⟩
  · exact Or.inl (h1.trans h2)
  · exact Or.inl (h2 ▸ h1)
  · exact Or.inl (h1 ▸ h2)
  · exact Or.inr ⟨h1.trans h2, h1'.trans h2'⟩

instance ascRel_antisymm {κ : Type} [LinearOrder κ] [Zero κ] (keys : List κ) :
    IsAntisymm ℕ (ascRel keys) := by
  constructor
  intro i j hij hji
  rcases hij with h1 | ⟨h1, h1'⟩ <;> rcases hji with h2 | ⟨h2, h2'⟩
  · exact absurd h2 (lt_asymm h1)
  · exact absurd h1 (h2.symm ▸ lt_irrefl _)
  · exact absurd h2 (h1 ▸ lt_irrefl _)
  · exact Nat.le_antisymm h1' h2'

instance descRel_total {κ : Type} [LinearOrder κ] [Zero κ] (keys : List κ) :
    IsTotal ℕ (descRel keys) := by
  constructor
  intro i j
  rcases lt_trichotomy (keys.getD i 0) (keys.getD j 0) with h | h | h
  · exact Or.inr (Or.inl h)
  · rcases Nat.le_total i j with hij | hij
    · exact Or.inl (Or.inr ⟨h, hij⟩)
    · exact Or.inr (Or.inr ⟨h.symm, hij⟩)
  · exact Or.inl (Or.inl h)

instance descRel_trans {κ : Type} [LinearOrder κ] [Zero κ] (keys : List κ) :
    IsTrans ℕ (descRel keys) := by
  constructor
  intro i j k hij hjk
  rcases hij with h1 | ⟨h1, h1'⟩ <;> rcases hjk with h2 | ⟨h2, h2'⟩
  · exact Or.inl (h2.trans h1)
  · exact Or.inl (h2 ▸ h1)
  · exact Or.inl (h1 ▸ h2)
  · exact Or.inr ⟨h1.trans h2, h1'.trans h2'⟩

instance descRel_antisymm {κ : Type} [LinearOrder κ] [Zero κ] (keys : List κ) :
    IsAntisymm ℕ (descRel keys) := by
  constructor
  intro i j hij hji
  rcases hij with h1 | ⟨h1, h1'⟩ <;> rcases hji with h2 | ⟨h2, h2'⟩
  · exact absurd h2 (lt_asymm h1)
  · exact absurd h1 (h2 ▸ lt_irrefl _)
  · exact absurd h2 (h1.symm ▸ lt_irrefl _)
  · exact Nat.le_antisymm h1' h2'

/-- Stable ascending argsort of a key list: the permutation of positions
sorted by (key, position). numpy argsort with its default quicksort kind is
introsort, which degenerates to a stable insertion sort on arrays of fewer
than 16 elements and is unstable on larger ones; this definition is
therefore exact for key lists of fewer than 16 elements. Tie-order facts
are asserted only under that length bound; facts insensitive to the order
of equal keys (value-sortedness, membership, lengths) hold for any correct
argsort and are asserted unconditionally. -/
def stableAscPerm {κ : Type} [LinearOrder κ] [Zero κ] (keys : List κ) : List ℕ :=
  List.insertionSort (ascRel keys) (List.range keys.length)

/-- Stable descending position sort under a key list. Models Python
sorted(..., reverse=True) and list.sort(..., reverse=True), which are stable. -/
def stableDescPerm {κ : Type} [LinearOrder κ] [Zero κ] (keys : List κ) : List ℕ :=
  List.insertionSort (descRel keys) (List.range keys.length)

/-- Stable descending sort of a list by a key function. -/
def stableSortByDesc {α : Type} [Inhabited α] {κ : Type} [LinearOrder κ] [Zero κ]
    (key : α → κ) (l : List α) : List α :=
  (stableDescPerm (l.map key)).map (fun i => l.getD i default)

/-! ## Tokenizer (MessageSearcher._tokenize)

Lowercase, then findall of word-character runs: maximal runs of
alphanumerics and underscore, everything else a separator. -/

def isWordChar (c : Char) : Bool := c.isAlphanum || c = '_'

def tokenizeAux : List Char → List Char → List String
  | [], acc => if acc.isEmpty then [] else [String.mk acc.reverse]
  | c :: cs, acc =>
    if isWordChar c then tokenizeAux cs (c :: acc)
    else if acc.isEmpty then tokenizeAux cs []
    else String.mk acc.reverse :: tokenizeAux cs []

/-- MessageSearcher._tokenize: lowercase and split on non-alphanumeric
(lowercasing modelled character-wise, which matches str.lower on the ASCII
inputs considered here). -/
def tokenize (text : String) : List String :=
  tokenizeAux (text.data.map Char.toLower) []

/-! ## The BM25 index (rank_bm25.BM25Okapi, constructed in
MessageSearcher.__init__ and queried in search_bm25)

The idf table involves math.log, hence real numbers. Both divisions in the
construction (avgdl = num_doc / corpus_size, average_idf = idf_sum / len(idf))
raise ZeroDivisionError in Python when the denominator is zero; construction
is therefore an Except. -/

/-- The state of a constructed BM25Okapi object. docFreqs keeps the token
lists themselves; the per-document frequency dictionary lookup
doc.get(q) or 0 is the count of q in the token list. -/
structure BM25 where
  corpusSize : ℕ
  avgdl : ℚ
  docFreqs : List (List String)
  docLen : List ℕ
  idf : List (String × ℝ)

/-- Keys of the nd dictionary in BM25._initialize: every distinct word of the
corpus, in order of first appearance (Python dict insertion order). -/
def insertNew (l : List String) (w : String) : List String :=
  if w ∈ l then l else l ++ [w]

def ndKeys (docs : List (List String)) : List String :=
  docs.foldl (fun acc d => d.foldl insertNew acc) []

/-- nd[w] in BM25._initialize: the number of documents containing w. -/
def ndCount (docs : List (List String)) (w : String) : ℕ :=
  docs.countP (fun d => decide (w ∈ d))

/-- The raw idf of BM25Okapi._calc_idf before the epsilon floor:
log(corpus_size - freq + 0.5) - log(freq + 0.5). -/
noncomputable def rawIdf (corpusSize freq : ℕ) : ℝ :=
  Real.log ((corpusSize : ℝ) - (freq : ℝ) + 1/2) - Real.log ((freq : ℝ) + 1/2)

/-- BM25Okapi._calc_idf: raw idfs, their average, and the epsilon floor
(negative idfs are replaced by epsilon * average_idf, epsilon = 0.25).
Fails like Python when the word table is empty (idf_sum / len(self.idf)). -/
noncomputable def calcIdf (corpusSize : ℕ) (keys : List String)
    (nd : String → ℕ) : Except String (List (String × ℝ)) :=
  if keys.length = 0 then .error "ZeroDivisionError"
  else
    let averageIdf : ℝ := ((keys.map (fun w => rawIdf corpusSize (nd w))).sum) / (keys.length : ℝ)
    let eps : ℝ := (1/4 : ℝ) * averageIdf
    .ok (keys.map (fun w =>
      (w, if rawIdf corpusSize (nd w) < 0 then eps else rawIdf corpusSize (nd w))))

/-- BM25Okapi construction (BM25.__init__ -> _initialize -> _calc_idf).
The first division, avgdl = num_doc / corpus_size, raises on an empty
corpus. -/
noncomputable def bm25Init (docs : List (List String)) : Except String BM25 :=
  if docs.length = 0 then .error "ZeroDivisionError"
  else
    match calcIdf docs.length (ndKeys docs) (ndCount docs) with
    | .error e => .error e
    | .ok idfTable =>
      .ok { corpusSize := docs.length
            avgdl := ((docs.map List.length).sum : ℚ) / (docs.length : ℚ)
            docFreqs := docs
            docLen := docs.map List.length
            idf := idfTable }

/-- self.idf.get(q) or 0: table lookup defaulting to 0 for unknown words
(a stored 0.0 is falsy in Python, but `or 0` then yields the same 0). -/
noncomputable def idfGet (idf : List (String × ℝ)) (q : String) : ℝ :=
  match idf.find? (fun p => p.1 = q) with
  | some p => p.2
  | none => 0

/-- BM25Okapi.get_scores: for each document the sum over query tokens of
idf(q) * f * (k1+1) / (f + k1 * (1 - b + b * dl / avgdl)),
with k1 = 1.5, b = 0.75. -/
noncomputable def getScores (st : BM25) (query : List String) : List ℝ :=
  (List.range st.corpusSize).map (fun d =>
    (query.map (fun q =>
      let f : ℝ := ((st.docFreqs.getD d []).count q : ℝ)
      let dl : ℝ := (st.docLen.getD d 0 : ℝ)
      idfGet st.idf q * (f * (3/2 + 1)) /
        (f + (3/2) * (1 - 3/4 + (3/4) * dl / (st.avgdl : ℝ))))).sum)

/-! ## MessageSearcher -/

/-- The embedding provider behind lm_studio.LMStudioClient: an external
network service; each call can fail (requests raises on connection errors,
HTTP errors and timeouts). -/
structure Provider where
  embed : String → Except String (List ℝ)
  embedBatch : List String → Except String (List (List ℝ))

/-- MessageSearcher state: the corpus, the eagerly built BM25 index and the
lazily built embedding cache. -/
structure MessageSearcher where
  messages : List Message
  bm25 : BM25
  embeddings : Option (List (List ℝ))

/-- MessageSearcher.__init__ with embed_on_init = False: tokenize the corpus
and build the BM25 index eagerly; the embedding cache starts empty. -/
noncomputable def searcherInit (messages : List Message) : Except String MessageSearcher :=
  match bm25Init (messages.map (fun m => tokenize m.content)) with
  | .error e => .error e
  | .ok st => .ok { messages := messages, bm25 := st, embeddings := none }

/-- MessageSearcher.search_bm25: score all documents, take the top_k indices
of the reversed argsort, and keep those with score > 0, in that order. -/
noncomputable def searchBm25 (st : BM25) (query : String) (topK : ℕ) : List SearchResult :=
  let scores := getScores st (tokenize query)
  let topIndices := (stableAscPerm scores).reverse.take topK
  topIndices.filterMap (fun i =>
    if 0 < scores.getD i 0 then some ⟨i, scores.getD i 0, "bm25"⟩ else none)

/-- MessageSearcher._cosine_similarity: dot over the product of norms, and
0.0 when either norm is zero. -/
noncomputable def cosineSim (a b : List ℝ) : ℝ :=
  let dot := ((a.zip b).map (fun p => p.1 * p.2)).sum
  let normA := Real.sqrt ((a.map (fun x => x * x)).sum)
  let normB := Real.sqrt ((b.map (fun x => x * x)).sum)
  if normA = 0 ∨ normB = 0 then 0 else dot / (normA * normB)

/-- MessageSearcher._compute_embeddings: build the cache on first use via one
batched provider call, a no-op if already cached. -/
noncomputable def computeEmbeddings (p : Provider) (s : MessageSearcher) :
    Except String MessageSearcher :=
  match s.embeddings with
  | some _ => .ok s
  | none =>
    match p.embedBatch (s.messages.map (fun m => m.content)) with
    | .error e => .error e
    | .ok embs => .ok { s with embeddings := some embs }

/-- MessageSearcher.search_semantic: ensure embeddings, embed the query,
sort all (index, similarity) pairs by similarity descending (stable), take
top_k and keep similarities > 0. Provider failures propagate. -/
noncomputable def searchSemantic (p : Provider) (s : MessageSearcher) (query : String)
    (topK : ℕ) : Except String (MessageSearcher × List SearchResult) :=
  match computeEmbeddings p s with
  | .error e => .error e
  | .ok s' =>
    match p.embed query with
    | .error e => .error e
    | .ok queryEmbedding =>
      let embs := s'.embeddings.getD []
      let sims := (List.range embs.length).map
        (fun i => (i, cosineSim queryEmbedding (embs.getD i [])))
      let sorted := stableSortByDesc (fun pr => pr.2) sims
      .ok (s', (sorted.take topK).filterMap (fun pr =>
        if 0 < pr.2 then some ⟨pr.1, pr.2, "semantic"⟩ else none))

/-! ## Keyword search (MessageSearcher.search_keyword)

The re module is external: `compile` is an oracle producing, for a valid
pattern, the finditer match counter of the compiled (case-insensitive)
regex, and none exactly when re.compile raises re.error. The fallback
re.compile(re.escape(pattern)) always succeeds and its finditer counts the
non-overlapping literal occurrences of the pattern, case-insensitively;
that counter is modelled directly. -/

def lowerChars (s : String) : List Char := s.data.map Char.toLower

/-- Non-overlapping occurrence count of pat in text, scanning left to right
(the match count of an escaped-literal regex under finditer; an empty
pattern matches once at every position, including the end). The fuel
argument makes the recursion structural; every step consumes at least one
character, so text.length + 1 fuel never runs out. -/
def countOccGo (pat : List Char) : ℕ → List Char → ℕ
  | 0, _ => 0
  | _ + 1, [] => if pat.isEmpty then 1 else 0
  | fuel + 1, c :: rest =>
    if pat.isEmpty = false ∧ pat.isPrefixOf (c :: rest) then
      1 + countOccGo pat fuel ((c :: rest).drop pat.length)
    else (if pat.isEmpty then 1 else 0) + countOccGo pat fuel rest

def countOcc (pat text : List Char) : ℕ :=
  countOccGo pat (text.length + 1) text

/-- Case-insensitive literal match count (IGNORECASE is modelled by
lowercasing both sides). -/
def literalCountCI (pat text : String) : ℕ :=
  countOcc (lowerChars pat) (lowerChars text)

/-- MessageSearcher.search_keyword with the default case_insensitive = True:
compile the pattern, fall back to the escaped literal matcher on re.error,
score each message by its match count (kept only when nonzero), sort by
score descending (stable, so ties stay in corpus order) and truncate. -/
noncomputable def searchKeyword (compile : String → Option (String → ℕ))
    (messages : List Message) (pattern : String) (topK : ℕ) : List SearchResult :=
  let regexCount : String → ℕ :=
    match compile pattern with
    | some f => f
    | none => fun text => literalCountCI pattern text
  let results := (List.range messages.length).filterMap (fun i =>
    let n := regexCount (messages.getD i default).content
    if n ≠ 0 then some (⟨i, (n : ℝ), "keyword"⟩ : SearchResult) else none)
  (stableSortByDesc (fun r => r.score) results).take topK

/-- A plain literal substring search (the behavior section 4.4 of the spec
prescribes for malformed patterns): identical pipeline with the literal
counter in place of the compiled regex. -/
noncomputable def searchKeywordLiteral (messages : List Message) (pattern : String)
    (topK : ℕ) : List SearchResult :=
  let results := (List.range messages.length).filterMap (fun i =>
    let n := literalCountCI pattern (messages.getD i default).content
    if n ≠ 0 then some (⟨i, (n : ℝ), "keyword"⟩ : SearchResult) else none)
  (stableSortByDesc (fun r => r.score) results).take topK

/-! ## Hybrid search (MessageSearcher.search_hybrid) -/

/-- normalize_scores (defined inside search_hybrid): the per-method score
dictionary keyed by message identity, score / max score; the empty
dictionary when the result list is empty or its max is 0. Dictionary
lookups in the combination loop use scores.get(msg_id, 0), so the
dictionary is modelled as its lookup-with-default-0 function. -/
noncomputable def normalizeScores (results : List SearchResult) : ℕ → ℝ :=
  match results with
  | [] => fun _ => 0
  | r0 :: rest =>
    let maxScore := (rest.map (fun r => r.score)).foldl max r0.score
    if maxScore = 0 then fun _ => 0
    else fun i =>
      match results.find? (fun r => r.idx = i) with
      | some r => r.score / maxScore
      | none => 0

/-- One step of the combination loop of search_hybrid: if msg_id is absent,
insert it with accumulated score 0.0, then add normalized * weight. The
accumulator is the message_scores dict: an association list in insertion
order with pairwise distinct keys. -/
noncomputable def addScore (acc : List (ℕ × ℝ)) (i : ℕ) (v : ℝ) : List (ℕ × ℝ) :=
  if acc.any (fun p => p.1 = i) then
    acc.map (fun p => if p.1 = i then (p.1, p.2 + v) else p)
  else acc ++ [(i, v)]

/-- The combination loop of search_hybrid over the three
(results, scores, weight) triples. -/
noncomputable def accumScores
    (triples : List (List SearchResult × (ℕ → ℝ) × ℝ)) : List (ℕ × ℝ) :=
  triples.foldl
    (fun acc t => t.1.foldl (fun a r => addScore a r.idx (t.2.1 r.idx * t.2.2)) acc)
    []

/-- Lookup in the message_scores association list (0 for absent keys);
used to state what the combination loop accumulates. -/
noncomputable def lookupAcc (acc : List (ℕ × ℝ)) (i : ℕ) : ℝ :=
  match acc.find? (fun p => p.1 = i) with
  | some p => p.2
  | none => 0

/-- The maximum of a result list (the max() call inside normalize_scores);
0 for an empty list. -/
noncomputable def maxScoreOf (results : List SearchResult) : ℝ :=
  match results with
  | [] => 0
  | r0 :: rest => (rest.map (fun r => r.score)).foldl max r0.score

/-- MessageSearcher.search_hybrid: run the three methods with 2 * top_k
candidates each (the semantic call may fail, and its failure propagates),
normalize per method, accumulate weighted sums per distinct message, sort
by total descending (stable) and return the top_k tagged hybrid. -/
noncomputable def searchHybrid (p : Provider) (compile : String → Option (String → ℕ))
    (s : MessageSearcher) (query : String) (topK : ℕ)
    (bm25Weight semanticWeight keywordWeight : ℝ) :
    Except String (List SearchResult) :=
  let bm25Results := searchBm25 s.bm25 query (topK * 2)
  match searchSemantic p s query (topK * 2) with
  | .error e => .error e
  | .ok (_, semanticResults) =>
    let keywordResults := searchKeyword compile s.messages query (topK * 2)
    let bm25Scores := normalizeScores bm25Results
    let semanticScores := normalizeScores semanticResults
    let keywordScores := normalizeScores keywordResults
    let messageScores := accumScores
      [(bm25Results, bm25Scores, bm25Weight),
       (semanticResults, semanticScores, semanticWeight),
       (keywordResults, keywordScores, keywordWeight)]
    let sortedResults := stableSortByDesc (fun pr => pr.2) messageScores
    .ok ((sortedResults.take topK).map (fun pr => ⟨pr.1, pr.2, "hybrid"⟩))

/-! ## search_by_sender -/

/-- Python slice lst[-k:] for k >= 0: the whole list when k = 0 (since
-0 is 0), otherwise the last k elements. -/
def lastSlice {α : Type} (l : List α) (k : ℕ) : List α :=
  if k = 0 then l else l.drop (l.length - k)

/-- The sender_messages list comprehension of search_by_sender, with each
kept message paired with its corpus index. -/
def senderEnum (s : MessageSearcher) (sender : String) : List (ℕ × Message) :=
  ((List.range s.messages.length).map
    (fun i => (i, s.messages.getD i default))).filter
      (fun pr => pr.2.sender = sender)

/-- MessageSearcher.search_by_sender: filter the corpus to the sender;
with no query (None or empty), wrap the last top_k of those messages with
score 1.0 and method filter; with a query, build a temporary searcher over
the sender messages and run hybrid search (default weights 0.3, 0.5, 0.2).
The temporary construction can itself fail (empty sender corpus). -/
noncomputable def searchBySender (p : Provider) (compile : String → Option (String → ℕ))
    (s : MessageSearcher) (sender : String) (query : Option String) (topK : ℕ) :
    Except String (List SearchResult) :=
  let senderMessages := senderEnum s sender
  if query = none ∨ query = some "" then
    .ok ((lastSlice senderMessages topK).map (fun pr =>
      (⟨pr.1, 1, "filter"⟩ : SearchResult)))
  else
    match searcherInit (senderMessages.map (fun pr => pr.2)) with
    | .error e => .error e
    | .ok temp =>
      searchHybrid p compile temp (query.getD "") topK (3/10) (5/10) (2/10)

/-! ## Conversation segmentation and scoring (features.py) -/

/-- features.ConversationThread (topic_summary omitted: it is filled by the
external text generator, empty by default). -/
structure ConversationThread where
  startTime : ℚ
  endTime : ℚ
  messageCount : ℕ
  participants : List String
  exchangeScore : ℚ
  sampleMessages : List String
deriving DecidableEq, Inhabited, Repr

/-- Stable ascending sort by a rational key (Python sorted with key=...). -/
def stableSortByAsc {α : Type} [Inhabited α] (key : α → ℚ) (l : List α) : List α :=
  (stableAscPerm (l.map key)).map (fun i => l.getD i default)

/-- The walk of find_conversation_threads: prev is the predecessor
sorted_msgs[i-1], current the accumulating run. A run is committed at a
gap boundary, and at the end of the stream, exactly when its length is at
least min_messages. The gap is (timestamp difference in seconds) / 60,
compared with <= max_gap_minutes. -/
def segmentAux (maxGap : ℚ) (minMessages : ℕ) :
    Message → List Message → List Message → List (List Message)
  | _, [], current => if minMessages ≤ current.length then [current] else []
  | prev, msg :: rest, current =>
    if (msg.timestamp - prev.timestamp) / 60 ≤ maxGap then
      segmentAux maxGap minMessages msg rest (current ++ [msg])
    else
      (if minMessages ≤ current.length then [current] else []) ++
        segmentAux maxGap minMessages msg rest [msg]

/-- The committed runs of find_conversation_threads, before scoring:
chronological stable sort, then the gap walk. -/
def findThreadRuns (messages : List Message) (maxGap : ℚ) (minMessages : ℕ) :
    List (List Message) :=
  match stableSortByAsc (fun m => m.timestamp) messages with
  | [] => []
  | m0 :: rest => segmentAux maxGap minMessages m0 rest [m0]

/-- Spec-side description of the walk (section 4.6): split the sorted stream
into maximal runs of consecutive messages whose gaps stay within
max_gap_minutes. Defined for comparison with the committed runs. -/
def gapSplitAux (maxGap : ℚ) : Message → List Message → List Message → List (List Message)
  | _, [], current => [current]
  | prev, msg :: rest, current =>
    if (msg.timestamp - prev.timestamp) / 60 ≤ maxGap then
      gapSplitAux maxGap msg rest (current ++ [msg])
    else
      current :: gapSplitAux maxGap msg rest [msg]

def gapSplit (maxGap : ℚ) : List Message → List (List Message)
  | [] => []
  | m0 :: rest => gapSplitAux maxGap m0 rest [m0]

/-- First-occurrence deduplication; models list(set(...)) of the senders in
_score_thread. Python set iteration order is unspecified; only the member
set and its size are used by the engine. -/
def dedupFirst (l : List String) : List String :=
  l.foldl insertNew []

/-- Adjacent sender changes counted by the loop in _score_thread. -/
def senderChanges : List Message → ℕ
  | [] => 0
  | [_] => 0
  | a :: b :: rest => (if b.sender ≠ a.sender then 1 else 0) + senderChanges (b :: rest)

/-- FeatureExtractor._score_thread. The divisions are exact in ℚ; Python
raises ZeroDivisionError on an empty thread or an empty participant list,
cases the callers never produce (threads have min_messages >= 1 members and
every sender is a chat participant). -/
def scoreThread (chat : Chat) (messages : List Message) : ConversationThread :=
  let participants := dedupFirst (messages.map (fun m => m.sender))
  let messageCount := messages.length
  let maxChanges := messageCount - 1
  let alternation : ℚ :=
    if 0 < maxChanges then (senderChanges messages : ℚ) / (maxChanges : ℚ) else 0
  let participantFactor : ℚ := (participants.length : ℚ) / (chat.participants.length : ℚ)
  let messageFactor : ℚ := min ((messageCount : ℚ) / 50) 1
  let avgLength : ℚ := ((messages.map (fun m => m.content.length)).sum : ℚ) / (messageCount : ℚ)
  let lengthFactor : ℚ := min (avgLength / 100) 1
  let exchangeScore : ℚ :=
    alternation * (4/10) + participantFactor * (2/10) +
      messageFactor * (2/10) + lengthFactor * (2/10)
  let sample := messages.take 3 ++ (messages.drop (messageCount / 2)).take 2
  { startTime := (messages.headD default).timestamp
    endTime := (messages.getLastD default).timestamp
    messageCount := messageCount
    participants := participants
    exchangeScore := exchangeScore
    sampleMessages := sample.map (fun m => m.content.take 100) }

/-- FeatureExtractor.find_conversation_threads: committed runs, scored,
sorted by exchange score descending (stable) and truncated to the top 5. -/
def findConversationThreads (chat : Chat) (maxGap : ℚ) (minMessages : ℕ) :
    List ConversationThread :=
  if chat.messages = [] then []
  else
    let runs := findThreadRuns chat.messages maxGap minMessages
    let scored := runs.map (scoreThread chat)
    (stableSortByDesc (fun t => t.exchangeScore) scored).take 5

/-! ## Spec-side definitions used to state claims -/

/-- The alternation factor as the spec defines it: adjacent pairs with
different senders over message_count - 1, and 0 when message_count <= 1. -/
def specAlternation (messages : List Message) : ℚ :=
  if messages.length ≤ 1 then 0
  else (senderChanges messages : ℚ) / ((messages.length - 1 : ℕ) : ℚ)

/-! ## Concrete inputs for counterexamples and witnesses -/

def mkMsg (t : ℚ) (s c : String) : Message :=
  { timestamp := t, sender := s, content := c }

/-- The spec example stream t = 0, 1, 2 minutes, a 10 minute gap, t = 12, 13
minutes (timestamps in seconds). -/
def segMsgs : List Message :=
  [mkMsg 0 "A" "one", mkMsg 60 "B" "two", mkMsg 120 "A" "three",
   mkMsg 720 "B" "four", mkMsg 780 "A" "five"]

def msgsABAB : List Message :=
  [mkMsg 0 "A" "", mkMsg 60 "B" "", mkMsg 120 "A" "", mkMsg 180 "B" ""]

def msgsAAA : List Message :=
  [mkMsg 0 "A" "", mkMsg 60 "A" "", mkMsg 120 "A" ""]

def chatAB : Chat := { messages := msgsABAB, participants := ["A", "B"] }

/-- Three-message corpus: the token cat is in two of three documents, so its
raw idf log(1.5) - log(2.5) is negative and the epsilon floor applies; dog
has raw idf log(2.5) - log(1.5), the two cancel exactly, so the floored idf
of cat is 0 and every BM25 score for the query cat is 0. -/
def corpus3 : List Message :=
  [mkMsg 0 "A" "cat", mkMsg 60 "B" "dog", mkMsg 120 "A" "cat cat"]

/-- Five-message corpus with two identical documents: the query apple gives
the two first documents identical positive scores, exposing how the
reversed argsort orders ties. -/
def corpus5 : List Message :=
  [mkMsg 0 "A" "apple pie", mkMsg 1 "B" "apple pie", mkMsg 2 "A" "x",
   mkMsg 3 "B" "y", mkMsg 4 "A" "z"]

/-- The tokenized corpus3. -/
def docs3 : List (List String) := corpus3.map (fun m => tokenize m.content)

/-- The idf table over corpus3: cat (raw idf log 1.5 - log 2.5 < 0) is
floored to epsilon * average, and the average is exactly 0 because the two
raw idfs cancel, so cat gets idf 0; dog keeps its positive raw idf. -/
noncomputable def idf3 : List (String × ℝ) :=
  [("cat", 0), ("dog", rawIdf 3 1)]

/-- The BM25 state over corpus3. -/
noncomputable def st3 : BM25 :=
  { corpusSize := 3, avgdl := 4/3, docFreqs := docs3,
    docLen := [1, 1, 2], idf := idf3 }

/-- The searcher over corpus3 right after construction. -/
noncomputable def searcher3 : MessageSearcher :=
  { messages := corpus3, bm25 := st3, embeddings := none }

/-- The searcher over corpus3 after the zero provider filled the cache. -/
noncomputable def searcher3e : MessageSearcher :=
  { messages := corpus3, bm25 := st3, embeddings := some [[0], [0], [0]] }

/-- The keyword results over corpus3 for the pattern cat. -/
noncomputable def kw3 : List SearchResult :=
  [⟨2, ((2 : ℕ) : ℝ), "keyword"⟩, ⟨0, ((1 : ℕ) : ℝ), "keyword"⟩]

/-- The tokenized corpus5. -/
def docs5 : List (List String) := corpus5.map (fun m => tokenize m.content)

/-- The idf table BM25Okapi builds over corpus5: every raw idf is
nonnegative (apple and pie occur in 2 of 5 documents, x, y, z in 1), so no
epsilon floor fires. -/
noncomputable def idf5 : List (String × ℝ) :=
  [("apple", rawIdf 5 2), ("pie", rawIdf 5 2),
   ("x", rawIdf 5 1), ("y", rawIdf 5 1), ("z", rawIdf 5 1)]

/-- The BM25 state over corpus5. -/
noncomputable def st5 : BM25 :=
  { corpusSize := 5, avgdl := 7/5, docFreqs := docs5,
    docLen := [2, 2, 1, 1, 1], idf := idf5 }

/-- The BM25 score of the two apple pie documents for the query apple. -/
noncomputable def s5 : ℝ :=
  rawIdf 5 2 * (1 * (3/2 + 1)) / (1 + (3/2) * (1 - 3/4 + (3/4) * 2 / (7/5)))

/-- A provider whose calls always fail (server unreachable: requests raises
ConnectionError). -/
def noProvider : Provider :=
  { embed := fun _ => .error "ConnectionError"
    embedBatch := fun _ => .error "ConnectionError" }

/-- A provider returning the zero vector for every text: every cosine
similarity is 0 (zero norm), so semantic search returns no candidates. -/
def zeroProvider : Provider :=
  { embed := fun _ => .ok [0]
    embedBatch := fun texts => .ok (texts.map (fun _ => [0])) }

/-- A re oracle for patterns that are valid regexes matching themselves
literally (such as the single word cat used below): compilation succeeds
and finditer counts literal occurrences. -/
def idOracle : String → Option (String → ℕ) :=
  fun p => some (fun t => literalCountCI p t)

/-- A re oracle under which the pattern (foo raises re.error (unbalanced
parenthesis) and every other pattern behaves literally. -/
def fooOracle : String → Option (String → ℕ) :=
  fun p => if p = "(foo" then none else some (fun t => literalCountCI p t)

def keywordMsgs : List Message :=
  [mkMsg 0 "A" "it (foo bar (foo", mkMsg 60 "B" "other text"]

def mAlice : Message := mkMsg 0 "Alice" "hi"

/-- A searcher state used where a theorem holds for every searcher state:
the sender filter path of search_by_sender never consults the index. -/
def dummyBM25 : BM25 :=
  { corpusSize := 0, avgdl := 0, docFreqs := [], docLen := [], idf := [] }

def senderSearcher : MessageSearcher :=
  { messages := [mkMsg 0 "Alice" "one", mkMsg 60 "Bob" "two", mkMsg 120 "Alice" "three"]
    bm25 := dummyBM25
    embeddings := none }


/-- A searcher over corpus3 with an unbuilt embedding cache, used by the C1
witness (its claim holds for every searcher state). -/
def failSearcher : MessageSearcher :=
  { messages := corpus3, bm25 := dummyBM25, embeddings := none }

/-! ## Helper lemmas -/

theorem stableAscPerm_perm {κ : Type} [LinearOrder κ] [Zero κ] (keys : List κ) :
    List.Perm (stableAscPerm keys) (List.range keys.length) :=
  List.perm_insertionSort _ _

theorem stableDescPerm_perm {κ : Type} [LinearOrder κ] [Zero κ] (keys : List κ) :
    List.Perm (stableDescPerm keys) (List.range keys.length) :=
  List.perm_insertionSort _ _

theorem stableAscPerm_sorted {κ : Type} [LinearOrder κ] [Zero κ] (keys : List κ) :
    (stableAscPerm keys).Sorted (ascRel keys) :=
  List.sorted_insertionSort _ _

theorem stableDescPerm_sorted {κ : Type} [LinearOrder κ] [Zero κ] (keys : List κ) :
    (stableDescPerm keys).Sorted (descRel keys) :=
  List.sorted_insertionSort _ _

/-- The stable ascending argsort is the unique sorted permutation of the
positions: to evaluate it on a concrete key list it suffices to guess the
answer and check it is a sorted permutation. -/
theorem stableAscPerm_eq {κ : Type} [LinearOrder κ] [Zero κ] (keys : List κ)
    (L : List ℕ) (hp : List.Perm L (List.range keys.length)) (hs : L.Sorted (ascRel keys)) :
    stableAscPerm keys = L :=
  List.eq_of_perm_of_sorted ((stableAscPerm_perm keys).trans hp.symm)
    (stableAscPerm_sorted keys) hs

theorem stableDescPerm_eq {κ : Type} [LinearOrder κ] [Zero κ] (keys : List κ)
    (L : List ℕ) (hp : List.Perm L (List.range keys.length)) (hs : L.Sorted (descRel keys)) :
    stableDescPerm keys = L :=
  List.eq_of_perm_of_sorted ((stableDescPerm_perm keys).trans hp.symm)
    (stableDescPerm_sorted keys) hs

theorem getD_map_lt {α : Type} [Inhabited α] {κ : Type} [Zero κ] (key : α → κ)
    (l : List α) (i : ℕ) (h : i < l.length) :
    (l.map key).getD i 0 = key (l.getD i default) := by
  rw [List.getD_eq_getElem?_getD, List.getD_eq_getElem?_getD,
    List.getElem?_eq_getElem (by simpa using h), List.getElem?_eq_getElem h]
  simp

/-- Map of position lookups over the full range reproduces the list. -/
theorem map_getD_range {α : Type} [Inhabited α] (l : List α) :
    (List.range l.length).map (fun i => l.getD i default) = l := by
  apply List.ext_getElem
  · simp
  · intro i h1 h2
    simp only [List.getElem_map, List.getElem_range]
    rw [List.getD_eq_getElem?_getD, List.getElem?_eq_getElem h2]
    simp

/-- A list already sorted weakly descending by its key is its own stable
descending sort. -/
theorem stableSortByDesc_eq_self {α : Type} [Inhabited α] {κ : Type} [LinearOrder κ]
    [Zero κ] (key : α → κ) (l : List α)
    (h : l.Pairwise (fun a b => key b ≤ key a)) :
    stableSortByDesc key l = l := by
  unfold stableSortByDesc
  have hperm : List.Perm (List.range (l.map key).length) (List.range (l.map key).length) := List.Perm.refl _
  have hsorted : (List.range (l.map key).length).Sorted (descRel (l.map key)) := by
    apply List.pairwise_iff_get.mpr
    intro i j hij
    have hi : (List.range (l.map key).length).get i = i.1 := by simp
    have hj : (List.range (l.map key).length).get j = j.1 := by simp
    rw [hi, hj]
    have hi' : (i : ℕ) < l.length := by simpa using i.2
    have hj' : (j : ℕ) < l.length := by simpa using j.2
    rw [descRel, getD_map_lt key l _ hi', getD_map_lt key l _ hj']
    have hle : key (l.getD (j : ℕ) default) ≤ key (l.getD (i : ℕ) default) := by
      have := List.pairwise_iff_get.mp h ⟨i, hi'⟩ ⟨j, hj'⟩ hij
      simp only [List.get_eq_getElem] at this
      rw [List.getD_eq_getElem?_getD, List.getD_eq_getElem?_getD,
        List.getElem?_eq_getElem hi', List.getElem?_eq_getElem hj']
      simpa using this
    rcases lt_or_eq_of_le hle with hlt | heq
    · exact Or.inl hlt
    · exact Or.inr ⟨heq.symm, le_of_lt hij⟩
  rw [stableDescPerm_eq (l.map key) _ hperm hsorted]
  have : (l.map key).length = l.length := by simp
  rw [this, map_getD_range]

/-- A list already sorted weakly ascending by its key is its own stable
ascending sort. -/
theorem stableSortByAsc_eq_self {α : Type} [Inhabited α] (key : α → ℚ) (l : List α)
    (h : l.Pairwise (fun a b => key a ≤ key b)) :
    stableSortByAsc key l = l := by
  unfold stableSortByAsc
  have hsorted : (List.range (l.map key).length).Sorted (ascRel (l.map key)) := by
    apply List.pairwise_iff_get.mpr
    intro i j hij
    have hi : (List.range (l.map key).length).get i = i.1 := by simp
    have hj : (List.range (l.map key).length).get j = j.1 := by simp
    rw [hi, hj]
    have hi' : (i : ℕ) < l.length := by simpa using i.2
    have hj' : (j : ℕ) < l.length := by simpa using j.2
    rw [ascRel, getD_map_lt key l _ hi', getD_map_lt key l _ hj']
    have hle : key (l.getD (i : ℕ) default) ≤ key (l.getD (j : ℕ) default) := by
      have := List.pairwise_iff_get.mp h ⟨i, hi'⟩ ⟨j, hj'⟩ hij
      simp only [List.get_eq_getElem] at this
      rw [List.getD_eq_getElem?_getD, List.getD_eq_getElem?_getD,
        List.getElem?_eq_getElem hi', List.getElem?_eq_getElem hj']
      simpa using this
    rcases lt_or_eq_of_le hle with hlt | heq
    · exact Or.inl hlt
    · exact Or.inr ⟨heq, le_of_lt hij⟩
  rw [stableAscPerm_eq (l.map key) _ (List.Perm.refl _) hsorted]
  have : (l.map key).length = l.length := by simp
  rw [this, map_getD_range]

/-- The committing walk is the gap split followed by the min_messages
filter. -/
theorem segmentAux_eq_filter (maxGap : ℚ) (minMessages : ℕ) :
    ∀ (rest : List Message) (prev : Message) (current : List Message),
    segmentAux maxGap minMessages prev rest current =
      (gapSplitAux maxGap prev rest current).filter
        (fun r => minMessages ≤ r.length) := by
  intro rest
  induction rest with
  | nil =>
    intro prev current
    simp only [segmentAux, gapSplitAux, List.filter]
    by_cases h : minMessages ≤ current.length
    · simp [h]
    · simp [h]
  | cons msg rest ih =>
    intro prev current
    simp only [segmentAux, gapSplitAux]
    by_cases hgap : (msg.timestamp - prev.timestamp) / 60 ≤ maxGap
    · simp only [if_pos hgap]
      exact ih msg (current ++ [msg])
    · simp only [if_neg hgap, List.filter]
      by_cases h : minMessages ≤ current.length
      · simp [h, ih msg [msg]]
      · simp [h, ih msg [msg]]

theorem mem_insertNew {l : List String} {w x : String} :
    x ∈ insertNew l w ↔ x ∈ l ∨ x = w := by
  unfold insertNew
  by_cases h : w ∈ l
  · simp only [if_pos h]
    constructor
    · exact Or.inl
    · rintro (hx | rfl)
      · exact hx
      · exact h
  · simp [if_neg h]

theorem nodup_insertNew {l : List String} {w : String} (h : l.Nodup) :
    (insertNew l w).Nodup := by
  unfold insertNew
  by_cases hw : w ∈ l
  · simpa [if_pos hw]
  · simp only [if_neg hw]
    rw [List.nodup_append]
    refine ⟨h, List.nodup_singleton w, ?_⟩
    intro x hx hx'
    rw [List.mem_singleton] at hx'
    exact hw (hx' ▸ hx)

theorem mem_foldl_insertNew :
    ∀ (l : List String) (acc : List String) (x : String),
    x ∈ l.foldl insertNew acc ↔ x ∈ acc ∨ x ∈ l := by
  intro l
  induction l with
  | nil => simp
  | cons w ws ih =>
    intro acc x
    simp only [List.foldl_cons, ih, mem_insertNew, List.mem_cons]
    tauto

theorem nodup_foldl_insertNew :
    ∀ (l : List String) (acc : List String), acc.Nodup →
    (l.foldl insertNew acc).Nodup := by
  intro l
  induction l with
  | nil => intro acc h; simpa
  | cons w ws ih =>
    intro acc h
    exact ih (insertNew acc w) (nodup_insertNew h)

theorem dedupFirst_nodup (l : List String) : (dedupFirst l).Nodup :=
  nodup_foldl_insertNew l [] List.nodup_nil

theorem mem_dedupFirst {l : List String} {x : String} :
    x ∈ dedupFirst l ↔ x ∈ l := by
  unfold dedupFirst
  rw [mem_foldl_insertNew]
  simp

/-- A nodup list contained in another list is not longer than it. -/
theorem nodup_subset_length_le {d l : List String} (hd : d.Nodup)
    (hsub : ∀ x ∈ d, x ∈ l) : d.length ≤ l.length := by
  calc d.length = d.toFinset.card := (List.toFinset_card_of_nodup hd).symm
    _ ≤ l.toFinset.card := by
        apply Finset.card_le_card
        intro x hx
        rw [List.mem_toFinset] at hx ⊢
        exact hsub x hx
    _ ≤ l.length := List.toFinset_card_le l

theorem senderChanges_le : ∀ (messages : List Message),
    senderChanges messages ≤ messages.length - 1 := by
  intro messages
  induction messages with
  | nil => simp [senderChanges]
  | cons a tail ih =>
    cases tail with
    | nil => simp [senderChanges]
    | cons b rest =>
      simp only [senderChanges, List.length_cons]
      have := ih
      simp only [senderChanges, List.length_cons] at this ⊢
      by_cases h : b.sender ≠ a.sender <;> simp [h] <;> omega

/-- The engagement score formula, read off the definition. -/
theorem scoreThread_exchangeScore (chat : Chat) (messages : List Message) :
    (scoreThread chat messages).exchangeScore =
      (if 0 < messages.length - 1 then
        (senderChanges messages : ℚ) / ((messages.length - 1 : ℕ) : ℚ) else 0) * (4/10)
      + (((dedupFirst (messages.map (fun m => m.sender))).length : ℚ) /
          (chat.participants.length : ℚ)) * (2/10)
      + (min ((messages.length : ℚ) / 50) 1) * (2/10)
      + (min ((((messages.map (fun m => m.content.length)).sum : ℚ) /
          (messages.length : ℚ)) / 100) 1) * (2/10) := rfl


theorem stableSortByDesc_length {α : Type} [Inhabited α] {κ : Type} [LinearOrder κ]
    [Zero κ] (key : α → κ) (l : List α) :
    (stableSortByDesc key l).length = l.length := by
  unfold stableSortByDesc
  rw [List.length_map, (stableDescPerm_perm _).length_eq, List.length_range,
    List.length_map]

/-- The reversed stable argsort is strictly sorted by the lexicographic key
(score descending, position descending on ties). -/
theorem stableAscPerm_reverse_pairwise {κ : Type} [LinearOrder κ] [Zero κ]
    (keys : List κ) :
    (stableAscPerm keys).reverse.Pairwise
      (fun i j => keys.getD j 0 < keys.getD i 0 ∨
        (keys.getD i 0 = keys.getD j 0 ∧ j < i)) := by
  have hs : (stableAscPerm keys).Pairwise (ascRel keys) := stableAscPerm_sorted keys
  have hnd : (stableAscPerm keys).Nodup :=
    ((stableAscPerm_perm keys).nodup_iff).mpr (List.nodup_range _)
  rw [List.pairwise_reverse]
  have hcomb := hs.and hnd
  refine hcomb.imp ?_
  rintro a b ⟨hab, hne⟩
  rcases hab with h | ⟨h, hle⟩
  · exact Or.inl h
  · exact Or.inr ⟨h.symm, lt_of_le_of_ne hle hne⟩

/-- All-zero score lists have zero lookups everywhere. -/
theorem getD_map_zero (n i : ℕ) :
    ((List.range n).map (fun _ => (0 : ℝ))).getD i 0 = 0 := by
  rcases lt_or_ge i n with h | h
  · rw [List.getD_eq_getElem?_getD, List.getElem?_eq_getElem (by simpa using h)]
    simp
  · exact List.getD_eq_default _ _ (by simpa using h)

/-- Positivity of the document score of the apple pie documents. -/
theorem s5_pos : 0 < s5 := by
  have hlog : 0 < rawIdf 5 2 := by
    unfold rawIdf
    have h := Real.log_lt_log (x := (2 : ℝ) + 1/2) (by norm_num)
      (y := (5 : ℝ) - 2 + 1/2) (by norm_num)
    push_cast
    linarith
  unfold s5
  have hden : (0 : ℝ) < 1 + (3/2) * (1 - 3/4 + (3/4) * 2 / (7/5)) := by norm_num
  positivity

theorem rawIdf51_nonneg : 0 ≤ rawIdf 5 1 := by
  unfold rawIdf
  have h := Real.log_lt_log (x := (1 : ℝ) + 1/2) (by norm_num)
    (y := (5 : ℝ) - 1 + 1/2) (by norm_num)
  push_cast
  linarith

theorem rawIdf52_nonneg : 0 ≤ rawIdf 5 2 := by
  have hlog : 0 < rawIdf 5 2 := by
    unfold rawIdf
    have h := Real.log_lt_log (x := (2 : ℝ) + 1/2) (by norm_num)
      (y := (5 : ℝ) - 2 + 1/2) (by norm_num)
    push_cast
    linarith
  exact le_of_lt hlog

/-- BM25Okapi construction over corpus5 produces st5. -/
theorem bm25Init_docs5 : bm25Init docs5 = .ok st5 := by
  have h2 : ¬ rawIdf 5 2 < 0 := not_lt.mpr rawIdf52_nonneg
  have h1 : ¬ rawIdf 5 1 < 0 := not_lt.mpr rawIdf51_nonneg
  have hks : ndKeys docs5 = ["apple", "pie", "x", "y", "z"] := rfl
  have hlen : docs5.length = 5 := rfl
  have hcalc : calcIdf docs5.length (ndKeys docs5) (ndCount docs5) = .ok idf5 := by
    unfold calcIdf
    rw [hks, hlen]
    rw [if_neg (by decide : ¬ ([("apple" : String), "pie", "x", "y", "z"].length = 0))]
    have e1 : ndCount docs5 "apple" = 2 := rfl
    have e2 : ndCount docs5 "pie" = 2 := rfl
    have e3 : ndCount docs5 "x" = 1 := rfl
    have e4 : ndCount docs5 "y" = 1 := rfl
    have e5 : ndCount docs5 "z" = 1 := rfl
    simp only [List.map, e1, e2, e3, e4, e5, if_neg h2, if_neg h1, idf5]
  unfold bm25Init
  rw [if_neg (by decide : ¬ docs5.length = 0), hcalc]
  simp only [Except.ok.injEq, st5]
  have hsum : (List.map List.length docs5).sum = 7 := rfl
  have hdl : List.map List.length docs5 = [2, 2, 1, 1, 1] := rfl
  rw [hsum, hlen, hdl]
  norm_num

/-- The score vector of st5 for the query apple. -/
theorem getScores_st5 : getScores st5 ["apple"] = [s5, s5, 0, 0, 0] := by
  have hr : List.range st5.corpusSize = [0, 1, 2, 3, 4] := rfl
  unfold getScores
  rw [hr]
  simp only [List.map, List.sum_cons, List.sum_nil, add_zero]
  have hidf : idfGet st5.idf "apple" = rawIdf 5 2 := rfl
  rw [hidf]
  have hf0 : ((st5.docFreqs.getD 0 []).count "apple" : ℝ) = 1 := by
    rw [show (st5.docFreqs.getD 0 []).count "apple" = 1 from rfl]
    norm_num
  have hf1 : ((st5.docFreqs.getD 1 []).count "apple" : ℝ) = 1 := by
    rw [show (st5.docFreqs.getD 1 []).count "apple" = 1 from rfl]
    norm_num
  have hf2 : ((st5.docFreqs.getD 2 []).count "apple" : ℝ) = 0 := by
    rw [show (st5.docFreqs.getD 2 []).count "apple" = 0 from rfl]
    norm_num
  have hf3 : ((st5.docFreqs.getD 3 []).count "apple" : ℝ) = 0 := by
    rw [show (st5.docFreqs.getD 3 []).count "apple" = 0 from rfl]
    norm_num
  have hf4 : ((st5.docFreqs.getD 4 []).count "apple" : ℝ) = 0 := by
    rw [show (st5.docFreqs.getD 4 []).count "apple" = 0 from rfl]
    norm_num
  have hd0 : ((st5.docLen.getD 0 0) : ℝ) = 2 := by norm_num [st5]
  have hd1 : ((st5.docLen.getD 1 0) : ℝ) = 2 := by norm_num [st5]
  have ha : ((st5.avgdl : ℚ) : ℝ) = 7/5 := by norm_num [st5]
  rw [hf0, hf1, hf2, hf3, hf4, hd0, hd1, ha]
  unfold s5
  norm_num

/-- The stable argsort of the score vector [s5, s5, 0, 0, 0]. -/
theorem ascPerm_s5 : stableAscPerm [s5, s5, 0, 0, 0] = [2, 3, 4, 0, 1] := by
  apply stableAscPerm_eq
  · decide
  · have hpos := s5_pos
    refine List.Pairwise.cons ?_ (List.Pairwise.cons ?_ (List.Pairwise.cons ?_
      (List.Pairwise.cons ?_ (List.pairwise_singleton _ _))))
    · intro b hb
      simp only [List.mem_cons, List.not_mem_nil, or_false] at hb
      rcases hb with rfl | rfl | rfl | rfl
      · exact Or.inr ⟨rfl, by omega⟩
      · exact Or.inr ⟨rfl, by omega⟩
      · exact Or.inl hpos
      · exact Or.inl hpos
    · intro b hb
      simp only [List.mem_cons, List.not_mem_nil, or_false] at hb
      rcases hb with rfl | rfl | rfl
      · exact Or.inr ⟨rfl, by omega⟩
      · exact Or.inl hpos
      · exact Or.inl hpos
    · intro b hb
      simp only [List.mem_cons, List.not_mem_nil, or_false] at hb
      rcases hb with rfl | rfl
      · exact Or.inl hpos
      · exact Or.inl hpos
    · intro b hb
      simp only [List.mem_cons, List.not_mem_nil, or_false] at hb
      rcases hb with rfl
      exact Or.inr ⟨rfl, by omega⟩

/-- BM25 search over corpus5 for apple: the two tied documents come back in
reverse corpus order. -/
theorem searchBm25_st5 : searchBm25 st5 "apple" 10 =
    [⟨1, s5, "bm25"⟩, ⟨0, s5, "bm25"⟩] := by
  have htok : tokenize "apple" = ["apple"] := rfl
  simp only [searchBm25, htok, getScores_st5, ascPerm_s5]
  show (([2, 3, 4, 0, 1].reverse.take 10).filterMap _ : List SearchResult) = _
  have hrev : ([2, 3, 4, 0, 1] : List ℕ).reverse.take 10 = [1, 0, 4, 3, 2] := rfl
  rw [hrev]
  simp only [List.filterMap_cons, List.filterMap_nil]
  rw [if_pos (show (0:ℝ) < [s5, s5, 0, 0, 0].getD 1 0 from s5_pos),
    if_pos (show (0:ℝ) < [s5, s5, 0, 0, 0].getD 0 0 from s5_pos),
    if_neg (show ¬ (0:ℝ) < [s5, s5, 0, 0, 0].getD 4 0 from lt_irrefl 0),
    if_neg (show ¬ (0:ℝ) < [s5, s5, 0, 0, 0].getD 3 0 from lt_irrefl 0),
    if_neg (show ¬ (0:ℝ) < [s5, s5, 0, 0, 0].getD 2 0 from lt_irrefl 0)]
  rfl

theorem lookupAcc_cons (p : ℕ × ℝ) (rest : List (ℕ × ℝ)) (j : ℕ) :
    lookupAcc (p :: rest) j = if p.1 = j then p.2 else lookupAcc rest j := by
  unfold lookupAcc
  by_cases h : p.1 = j
  · rw [List.find?_cons_of_pos _ (by simpa using h), if_pos h]
  · rw [List.find?_cons_of_neg _ (by simpa using h), if_neg h]

theorem lookupAcc_map_update (acc : List (ℕ × ℝ)) (i : ℕ) (v : ℝ) (j : ℕ) :
    lookupAcc (acc.map (fun p => if p.1 = i then (p.1, p.2 + v) else p)) j
      = lookupAcc acc j +
        (if i = j ∧ (acc.any (fun p => p.1 = j)) = true then v else 0) := by
  induction acc with
  | nil => simp [lookupAcc]
  | cons p rest ih =>
    simp only [List.map_cons]
    have hkey : (if p.1 = i then (p.1, p.2 + v) else p).1 = p.1 := by
      by_cases hpi : p.1 = i <;> simp [hpi]
    rw [lookupAcc_cons, lookupAcc_cons, hkey]
    by_cases hpj : p.1 = j
    · rw [if_pos hpj, if_pos hpj]
      by_cases hij : i = j
      · have hpi : p.1 = i := by rw [hpj, hij]
        rw [if_pos hpi]
        rw [if_pos ⟨hij, by simp [hpj]⟩]
      · have hpi : ¬ p.1 = i := fun h => hij (h.symm.trans hpj)
        rw [if_neg hpi, if_neg (fun h => hij h.1)]
        ring
    · rw [if_neg hpj, if_neg hpj, ih]
      by_cases hij : i = j
      · subst hij
        by_cases hr : (rest.any (fun p => p.1 = i)) = true
        · rw [if_pos ⟨rfl, hr⟩, if_pos ⟨rfl, by simp [List.any_cons, hr]⟩]
        · rw [if_neg (fun h => hr h.2),
            if_neg (fun h => by
              rcases h with ⟨_, h2⟩
              simp only [List.any_cons, Bool.or_eq_true] at h2
              rcases h2 with h2 | h2
              · exact hpj (by simpa using h2)
              · exact hr h2)]
      · rw [if_neg (fun h => hij h.1), if_neg (fun h => hij h.1)]

theorem lookupAcc_append_single (acc : List (ℕ × ℝ)) (i : ℕ) (v : ℝ) (j : ℕ)
    (habs : (acc.any (fun p => p.1 = i)) = false) :
    lookupAcc (acc ++ [(i, v)]) j = lookupAcc acc j + (if i = j then v else 0) := by
  induction acc with
  | nil =>
    simp only [List.nil_append, lookupAcc_cons]
    by_cases hij : i = j
    · rw [if_pos hij, if_pos hij]
      simp [lookupAcc]
    · rw [if_neg hij, if_neg hij]
      simp [lookupAcc]
  | cons p rest ih =>
    simp only [List.any_cons, Bool.or_eq_false_iff] at habs
    obtain ⟨hpi, hrest⟩ := habs
    simp only [List.cons_append]
    rw [lookupAcc_cons, lookupAcc_cons]
    by_cases hpj : p.1 = j
    · rw [if_pos hpj, if_pos hpj]
      have hij : ¬ i = j := by
        intro h
        exact absurd (decide_eq_true (by rw [hpj, h] : p.1 = i)) (by simpa using hpi)
      rw [if_neg hij]
      ring
    · rw [if_neg hpj, if_neg hpj]
      exact ih hrest

/-- One combination step changes exactly the accumulated total of the
inserted key, by the added value. -/
theorem lookupAcc_addScore (acc : List (ℕ × ℝ)) (i : ℕ) (v : ℝ) (j : ℕ) :
    lookupAcc (addScore acc i v) j = lookupAcc acc j + (if i = j then v else 0) := by
  unfold addScore
  by_cases hany : (acc.any (fun p => p.1 = i)) = true
  · rw [if_pos hany, lookupAcc_map_update]
    by_cases hij : i = j
    · subst hij
      rw [if_pos ⟨rfl, hany⟩, if_pos rfl]
    · rw [if_neg (by rintro ⟨h, _⟩; exact hij h), if_neg hij]
  · rw [if_neg hany, lookupAcc_append_single _ _ _ _
      (by simp only [Bool.not_eq_true] at hany; exact hany)]

theorem addScore_map_fst (acc : List (ℕ × ℝ)) (i : ℕ) (v : ℝ) :
    (addScore acc i v).map Prod.fst =
      if (acc.any (fun p => p.1 = i)) = true then acc.map Prod.fst
      else acc.map Prod.fst ++ [i] := by
  unfold addScore
  by_cases hany : (acc.any (fun p => p.1 = i)) = true
  · rw [if_pos hany, if_pos hany, List.map_map]
    apply List.map_congr_left
    intro p _
    by_cases hpi : p.1 = i <;> simp [hpi]
  · rw [if_neg hany, if_neg hany]
    simp

theorem addScore_keys_nodup (acc : List (ℕ × ℝ)) (i : ℕ) (v : ℝ)
    (hnd : (acc.map Prod.fst).Nodup) :
    ((addScore acc i v).map Prod.fst).Nodup := by
  rw [addScore_map_fst]
  by_cases hany : (acc.any (fun p => p.1 = i)) = true
  · rwa [if_pos hany]
  · rw [if_neg hany, List.nodup_append]
    refine ⟨hnd, List.nodup_singleton _, ?_⟩
    intro x hx hx'
    rw [List.mem_singleton] at hx'
    subst hx'
    rw [List.mem_map] at hx
    obtain ⟨p, hp, hpx⟩ := hx
    exact hany (List.any_eq_true.mpr ⟨p, hp, by simpa using hpx⟩)

theorem lookupAcc_foldl (g : ℕ → ℝ) (results : List SearchResult) :
    ∀ (acc : List (ℕ × ℝ)) (j : ℕ),
    lookupAcc (results.foldl (fun a r => addScore a r.idx (g r.idx)) acc) j
      = lookupAcc acc j +
        ((results.countP (fun r => decide (r.idx = j))) : ℝ) * g j := by
  induction results with
  | nil => intro acc j; simp
  | cons r rs ih =>
    intro acc j
    simp only [List.foldl_cons]
    rw [ih, lookupAcc_addScore, List.countP_cons]
    by_cases hrj : r.idx = j
    · subst hrj
      simp only [if_pos rfl, decide_eq_true_eq, if_pos trivial]
      push_cast
      ring
    · simp only [if_neg hrj, decide_eq_true_eq]
      push_cast
      ring

theorem foldl_addScore_keys_nodup (g : ℕ → ℝ) (results : List SearchResult) :
    ∀ (acc : List (ℕ × ℝ)), (acc.map Prod.fst).Nodup →
    ((results.foldl (fun a r => addScore a r.idx (g r.idx)) acc).map Prod.fst).Nodup := by
  induction results with
  | nil => intro acc h; simpa
  | cons r rs ih =>
    intro acc h
    exact ih _ (addScore_keys_nodup _ _ _ h)

/-- With pairwise distinct keys, a stored pair reads back its own value. -/
theorem mem_lookupAcc (acc : List (ℕ × ℝ)) (pr : ℕ × ℝ)
    (hnd : (acc.map Prod.fst).Nodup) (hmem : pr ∈ acc) :
    lookupAcc acc pr.1 = pr.2 := by
  induction acc with
  | nil => cases hmem
  | cons p rest ih =>
    rcases List.mem_cons.mp hmem with rfl | hmem'
    · simp only [lookupAcc]
      rw [List.find?_cons_of_pos _ (by simp)]
    · simp only [List.map_cons, List.nodup_cons] at hnd
      have hne : ¬ p.1 = pr.1 := by
        intro h
        exact hnd.1 (h ▸ List.mem_map.mpr ⟨pr, hmem', rfl⟩)
      simp only [lookupAcc]
      rw [List.find?_cons_of_neg _ (by simpa using hne)]
      exact ih hnd.2 hmem'

theorem normalizeScores_of_not_mem (results : List SearchResult) (j : ℕ)
    (h : ∀ r ∈ results, r.idx ≠ j) : normalizeScores results j = 0 := by
  match results with
  | [] => rfl
  | r0 :: rest =>
    simp only [normalizeScores]
    by_cases hmax : ((rest.map (fun r => r.score)).foldl max r0.score) = 0
    · rw [if_pos hmax]
    · rw [if_neg hmax]
      have hfind : (r0 :: rest).find? (fun r => r.idx = j) = none := by
        rw [List.find?_eq_none]
        intro r hr
        simpa using h r hr
      rw [hfind]

theorem countP_idx_eq_count (results : List SearchResult) (j : ℕ) :
    results.countP (fun r => decide (r.idx = j)) =
      (results.map (fun r => r.idx)).count j := by
  induction results with
  | nil => rfl
  | cons r rs ih =>
    rw [List.countP_cons, List.map_cons, List.count_cons, ih]
    by_cases h : r.idx = j <;> simp [h]

/-- The accumulated total of any key after folding in one method list whose
indices are pairwise distinct: the normalized score times the weight,
regardless of whether the key occurs (absent keys contribute zero both
ways). -/
theorem lookupAcc_foldl_norm (results : List SearchResult) (w : ℝ)
    (hnd : (results.map (fun r => r.idx)).Nodup) (acc : List (ℕ × ℝ)) (j : ℕ) :
    lookupAcc (results.foldl
      (fun a r => addScore a r.idx (normalizeScores results r.idx * w)) acc) j
      = lookupAcc acc j + normalizeScores results j * w := by
  rw [lookupAcc_foldl (fun i => normalizeScores results i * w)]
  have hcount : results.countP (fun r => decide (r.idx = j)) =
      (results.map (fun r => r.idx)).count j := countP_idx_eq_count results j
  by_cases hmem : j ∈ results.map (fun r => r.idx)
  · have h1 : (results.map (fun r => r.idx)).count j = 1 := by
      have hle := List.nodup_iff_count_le_one.mp hnd j
      have hge := List.count_pos_iff.mpr hmem
      omega
    rw [hcount, h1]
    norm_num
  · have h0 : (results.map (fun r => r.idx)).count j = 0 :=
      List.count_eq_zero.mpr hmem
    rw [hcount, h0]
    have hnorm : normalizeScores results j = 0 := by
      apply normalizeScores_of_not_mem
      intro r hr hrj
      exact hmem (List.mem_map.mpr ⟨r, hr, hrj⟩)
    rw [hnorm]
    norm_num

/-- The stable descending sort is a permutation of its input. -/
theorem stableSortByDesc_perm {α : Type} [Inhabited α] {κ : Type} [LinearOrder κ]
    [Zero κ] (key : α → κ) (l : List α) :
    List.Perm (stableSortByDesc key l) l := by
  unfold stableSortByDesc
  have h := (stableDescPerm_perm (l.map key)).map (fun i => l.getD i default)
  refine h.trans ?_
  rw [List.length_map, map_getD_range]

/-- The stable descending sort is weakly descending in its key. -/
theorem stableSortByDesc_pairwise {α : Type} [Inhabited α] {κ : Type} [LinearOrder κ]
    [Zero κ] (key : α → κ) (l : List α) :
    (stableSortByDesc key l).Pairwise (fun a b => key b ≤ key a) := by
  unfold stableSortByDesc
  have hs := stableDescPerm_sorted (l.map key)
  have hmem : ∀ i ∈ stableDescPerm (l.map key), i < l.length := by
    intro i hi
    have := (stableDescPerm_perm (l.map key)).mem_iff.mp hi
    simpa using this
  have hs' := List.Pairwise.and_mem.mp hs
  refine List.Pairwise.map _ ?_ hs'
  rintro a b ⟨ha, hb, hab⟩
  have ha' := hmem a ha
  have hb' := hmem b hb
  rcases hab with h | ⟨h, _⟩
  · rw [getD_map_lt key l _ ha', getD_map_lt key l _ hb'] at h
    exact le_of_lt h
  · rw [getD_map_lt key l _ ha', getD_map_lt key l _ hb'] at h
    exact le_of_eq h.symm

theorem map_idx_filterMap_guard (L : List ℕ) (P : ℕ → Prop) [DecidablePred P]
    (f : ℕ → ℝ) (m : String) :
    ((L.filterMap (fun i => if P i then some (⟨i, f i, m⟩ : SearchResult) else none)).map
      (fun r => r.idx)) = L.filter (fun i => decide (P i)) := by
  induction L with
  | nil => rfl
  | cons a l ih =>
    by_cases h : P a
    · simp [List.filterMap_cons, List.filter_cons, h, ih]
    · simp [List.filterMap_cons, List.filter_cons, h, ih]

theorem map_idx_filterMap_pairs (L : List (ℕ × ℝ)) (m : String) :
    ((L.filterMap (fun pr =>
      if 0 < pr.2 then some (⟨pr.1, pr.2, m⟩ : SearchResult) else none)).map
        (fun r => r.idx)) = (L.filter (fun pr => decide (0 < pr.2))).map Prod.fst := by
  induction L with
  | nil => rfl
  | cons a l ih =>
    by_cases h : 0 < a.2
    · simp [List.filterMap_cons, List.filter_cons, h, ih]
    · simp [List.filterMap_cons, List.filter_cons, h, ih]

/-- BM25 results carry pairwise distinct corpus indices. -/
theorem searchBm25_idx_nodup (st : BM25) (query : String) (topK : ℕ) :
    ((searchBm25 st query topK).map (fun r => r.idx)).Nodup := by
  set scores := getScores st (tokenize query) with hscores
  have hunfold : searchBm25 st query topK =
      ((stableAscPerm scores).reverse.take topK).filterMap (fun i =>
        if 0 < scores.getD i 0 then
          some ⟨i, scores.getD i 0, "bm25"⟩ else none) := rfl
  rw [hunfold, map_idx_filterMap_guard]
  apply List.Nodup.filter
  apply List.Nodup.sublist (List.take_sublist _ _)
  rw [List.nodup_reverse]
  exact ((stableAscPerm_perm scores).nodup_iff).mpr (List.nodup_range _)

/-- The sorted prefix of a stable descending sort keeps indices distinct
provided the input list had distinct indices. -/
theorem sort_take_idx_nodup (l : List SearchResult) (topK : ℕ)
    (h : (l.map (fun r => r.idx)).Nodup) :
    (((stableSortByDesc (fun r => r.score) l).take topK).map (fun r => r.idx)).Nodup := by
  have hperm := (stableSortByDesc_perm (fun r => r.score) l).map (fun r => r.idx)
  have hnd : ((stableSortByDesc (fun r => r.score) l).map (fun r => r.idx)).Nodup :=
    hperm.nodup_iff.mpr h
  rw [List.map_take]
  exact List.Nodup.sublist (List.take_sublist _ _) hnd

/-- Keyword results carry pairwise distinct corpus indices. -/
theorem searchKeyword_idx_nodup (compile : String → Option (String → ℕ))
    (messages : List Message) (pattern : String) (topK : ℕ) :
    ((searchKeyword compile messages pattern topK).map (fun r => r.idx)).Nodup := by
  set cnt : String → ℕ :=
    (match compile pattern with
     | some f => f
     | none => fun text => literalCountCI pattern text) with hcnt
  have hunfold : searchKeyword compile messages pattern topK =
      ((stableSortByDesc (fun r => r.score)
        ((List.range messages.length).filterMap (fun i =>
          if cnt (messages.getD i default).content ≠ 0 then
            some (⟨i, (cnt (messages.getD i default).content : ℝ), "keyword"⟩ : SearchResult)
          else none))).take topK) := rfl
  rw [hunfold]
  apply sort_take_idx_nodup
  rw [map_idx_filterMap_guard]
  exact (List.nodup_range _).filter _

/-- Semantic results carry pairwise distinct corpus indices. -/
theorem searchSemantic_idx_nodup (p : Provider) (s : MessageSearcher) (query : String)
    (topK : ℕ) (s' : MessageSearcher) (semResults : List SearchResult)
    (hsem : searchSemantic p s query topK = .ok (s', semResults)) :
    (semResults.map (fun r => r.idx)).Nodup := by
  unfold searchSemantic at hsem
  cases hce : computeEmbeddings p s with
  | error e => rw [hce] at hsem; cases hsem
  | ok s2 =>
    rw [hce] at hsem
    cases hqe : p.embed query with
    | error e => rw [hqe] at hsem; cases hsem
    | ok qe =>
      rw [hqe] at hsem
      simp only [Except.ok.injEq, Prod.mk.injEq] at hsem
      obtain ⟨-, hres⟩ := hsem
      subst hres
      set embs := s2.embeddings.getD [] with hembs
      set sims := (List.range embs.length).map
        (fun i => (i, cosineSim qe (embs.getD i []))) with hsims
      have hfst : sims.map Prod.fst = List.range embs.length := by
        rw [hsims, List.map_map]
        exact List.map_id _
      have hndsorted : ((stableSortByDesc (fun pr => pr.2) sims).map Prod.fst).Nodup := by
        have hperm := (stableSortByDesc_perm (fun pr => pr.2) sims).map Prod.fst
        rw [hfst] at hperm
        exact hperm.nodup_iff.mpr (List.nodup_range _)
      rw [map_idx_filterMap_pairs]
      have hsub : ((((stableSortByDesc (fun pr => pr.2) sims).take topK).filter
          (fun pr => decide (0 < pr.2))).map Prod.fst).Nodup := by
        refine List.Nodup.sublist ?_ hndsorted
        exact ((List.filter_sublist _).trans (List.take_sublist _ _)).map _
      exact hsub

theorem rawIdf32_neg : rawIdf 3 2 < 0 := by
  unfold rawIdf
  have h := Real.log_lt_log (x := (3 : ℝ) - 2 + 1/2) (by norm_num)
    (y := (2 : ℝ) + 1/2) (by norm_num)
  push_cast
  linarith

theorem rawIdf31_nonneg : ¬ rawIdf 3 1 < 0 := by
  apply not_lt.mpr
  unfold rawIdf
  have h := Real.log_lt_log (x := (1 : ℝ) + 1/2) (by norm_num)
    (y := (3 : ℝ) - 1 + 1/2) (by norm_num)
  push_cast
  linarith

/-- The two raw idfs over corpus3 cancel exactly. -/
theorem raw3_cancel : rawIdf 3 2 + rawIdf 3 1 = 0 := by
  unfold rawIdf
  push_cast
  rw [show (3 : ℝ) - 2 + 1/2 = 1 + 1/2 by norm_num,
    show (3 : ℝ) - 1 + 1/2 = 2 + 1/2 by norm_num]
  ring

/-- BM25Okapi construction over corpus3 produces st3 (with the epsilon
floor firing for cat). -/
theorem bm25Init_docs3 : bm25Init docs3 = .ok st3 := by
  have hks : ndKeys docs3 = ["cat", "dog"] := rfl
  have hlen : docs3.length = 3 := rfl
  have hcalc : calcIdf docs3.length (ndKeys docs3) (ndCount docs3) = .ok idf3 := by
    unfold calcIdf
    rw [hks, hlen]
    rw [if_neg (by decide : ¬ ([("cat" : String), "dog"].length = 0))]
    have e1 : ndCount docs3 "cat" = 2 := rfl
    have e2 : ndCount docs3 "dog" = 1 := rfl
    simp only [List.map, e1, e2, if_pos rawIdf32_neg, if_neg rawIdf31_nonneg,
      List.sum_cons, List.sum_nil, idf3, Except.ok.injEq, List.cons.injEq,
      Prod.mk.injEq, List.length_cons, List.length_nil]
    refine ⟨⟨trivial, ?_⟩, trivial⟩
    rw [add_zero, raw3_cancel]
    norm_num
  unfold bm25Init
  rw [if_neg (by decide : ¬ docs3.length = 0), hcalc]
  simp only [Except.ok.injEq, st3]
  have hsum : (List.map List.length docs3).sum = 4 := rfl
  have hdl : List.map List.length docs3 = [1, 1, 2] := rfl
  rw [hsum, hlen, hdl]
  norm_num

theorem searcherInit_corpus3 : searcherInit corpus3 = .ok searcher3 := by
  unfold searcherInit
  have h : bm25Init (corpus3.map (fun m => tokenize m.content)) = .ok st3 :=
    bm25Init_docs3
  rw [h]
  rfl

/-- Every BM25 score over corpus3 for the query cat is zero (the idf of
cat is zero after the epsilon floor). -/
theorem getScores_st3 : getScores st3 ["cat"] = [0, 0, 0] := by
  have hr : List.range st3.corpusSize = [0, 1, 2] := rfl
  unfold getScores
  rw [hr]
  simp only [List.map, List.sum_cons, List.sum_nil, add_zero]
  have hidf : idfGet st3.idf "cat" = 0 := rfl
  rw [hidf]
  norm_num

theorem searchBm25_st3 (topK : ℕ) : searchBm25 st3 "cat" topK = [] := by
  have htok : tokenize "cat" = ["cat"] := rfl
  simp only [searchBm25, htok, getScores_st3]
  rw [List.filterMap_eq_nil_iff]
  intro i _
  have hz : ([(0 : ℝ), 0, 0]).getD i 0 = 0 := by
    rcases i with _ | _ | _ | n
    · rfl
    · rfl
    · rfl
    · exact List.getD_eq_default _ _ (by simp)
  rw [if_neg (by rw [hz]; exact lt_irrefl 0)]

theorem cosineSim_zero : cosineSim [(0 : ℝ)] [0] = 0 := by
  unfold cosineSim
  rw [if_pos]
  left
  have : (([(0 : ℝ)].map (fun x => x * x)).sum) = 0 := by simp
  rw [this, Real.sqrt_zero]

/-- Semantic search over corpus3 with the zero provider: the cache fills
with zero vectors and every similarity is 0, so no candidate passes. -/
theorem semantic3 : searchSemantic zeroProvider searcher3 "cat" (10 * 2) =
    .ok (searcher3e, []) := by
  have hce : computeEmbeddings zeroProvider searcher3 = .ok searcher3e := rfl
  have hqe : zeroProvider.embed "cat" = .ok [0] := rfl
  unfold searchSemantic
  rw [hce, hqe]
  simp only [Except.ok.injEq, Prod.mk.injEq]
  refine ⟨trivial, ?_⟩
  have hsims : (List.range (searcher3e.embeddings.getD []).length).map
      (fun i => (i, cosineSim [0] ((searcher3e.embeddings.getD []).getD i []))) =
      [(0, cosineSim [(0 : ℝ)] [0]), (1, cosineSim [0] [0]), (2, cosineSim [0] [0])] := rfl
  rw [hsims, cosineSim_zero]
  have hsort : stableSortByDesc (fun pr : ℕ × ℝ => pr.2) [(0, 0), (1, 0), (2, 0)] =
      [(0, 0), (1, 0), (2, 0)] := by
    apply stableSortByDesc_eq_self
    simp [List.pairwise_cons]
  rw [hsort]
  have htake : ([((0 : ℕ), (0 : ℝ)), (1, 0), (2, 0)]).take (10 * 2) =
      [(0, 0), (1, 0), (2, 0)] := rfl
  rw [htake]
  simp only [List.filterMap_cons, List.filterMap_nil]
  rw [if_neg (lt_irrefl (0 : ℝ)), if_neg (lt_irrefl (0 : ℝ)), if_neg (lt_irrefl (0 : ℝ))]

/-- Keyword search over corpus3 for cat: two and one literal matches,
sorted by match count. -/
theorem keyword3 : searchKeyword idOracle corpus3 "cat" (10 * 2) = kw3 := by
  have hres : (List.range corpus3.length).filterMap (fun i =>
      if literalCountCI "cat" (corpus3.getD i default).content ≠ 0 then
        some (⟨i, (literalCountCI "cat" (corpus3.getD i default).content : ℝ),
          "keyword"⟩ : SearchResult)
      else none) =
      [⟨0, ((1 : ℕ) : ℝ), "keyword"⟩, ⟨2, ((2 : ℕ) : ℝ), "keyword"⟩] := rfl
  have hperm : stableDescPerm (([⟨0, ((1 : ℕ) : ℝ), "keyword"⟩,
      ⟨2, ((2 : ℕ) : ℝ), "keyword"⟩] : List SearchResult).map (fun r => r.score)) =
      [1, 0] := by
    apply stableDescPerm_eq
    · decide
    · refine List.Pairwise.cons ?_ (List.pairwise_singleton _ _)
      intro b hb
      rw [List.mem_singleton] at hb
      subst hb
      left
      show ((1 : ℕ) : ℝ) < ((2 : ℕ) : ℝ)
      exact_mod_cast Nat.one_lt_two
  show (stableSortByDesc (fun r => r.score)
      ((List.range corpus3.length).filterMap (fun i =>
        if literalCountCI "cat" (corpus3.getD i default).content ≠ 0 then
          some (⟨i, (literalCountCI "cat" (corpus3.getD i default).content : ℝ),
            "keyword"⟩ : SearchResult)
        else none))).take (10 * 2) = kw3
  rw [hres]
  unfold stableSortByDesc
  rw [hperm]
  rfl

/-- Hybrid search over corpus3 with weights (1, 0, 0): lexical is empty,
semantic is empty, and the two keyword candidates survive with accumulated
score 0, in keyword-rank order. -/
theorem hybrid3 : searchHybrid zeroProvider idOracle searcher3 "cat" 10 1 0 0 =
    .ok [⟨2, 0, "hybrid"⟩, ⟨0, 0, "hybrid"⟩] := by
  unfold searchHybrid
  rw [semantic3]
  have hb : searchBm25 searcher3.bm25 "cat" (10 * 2) = [] := searchBm25_st3 (10 * 2)
  have hk : searchKeyword idOracle searcher3.messages "cat" (10 * 2) = kw3 := keyword3
  rw [hb, hk]
  show Except.ok ((((stableSortByDesc (fun pr : ℕ × ℝ => pr.2)
      (accumScores [(([] : List SearchResult), normalizeScores [], (1 : ℝ)),
        ([], normalizeScores [], 0), (kw3, normalizeScores kw3, 0)])).take 10).map
      (fun pr => (⟨pr.1, pr.2, "hybrid"⟩ : SearchResult)))) =
    Except.ok [⟨2, 0, "hybrid"⟩, ⟨0, 0, "hybrid"⟩]
  have hacc : accumScores
      [([], normalizeScores [], 1), ([], normalizeScores [], 0),
        (kw3, normalizeScores kw3, 0)] =
      [(2, normalizeScores kw3 2 * 0), (0, normalizeScores kw3 0 * 0)] := rfl
  rw [hacc]
  have hacc0 : [((2 : ℕ), normalizeScores kw3 2 * 0), ((0 : ℕ), normalizeScores kw3 0 * 0)] =
      [(2, (0 : ℝ)), (0, 0)] := by norm_num
  rw [hacc0]
  have hsort : stableSortByDesc (fun pr : ℕ × ℝ => pr.2) [(2, (0 : ℝ)), (0, 0)] =
      [(2, 0), (0, 0)] := by
    apply stableSortByDesc_eq_self
    simp [List.pairwise_cons]
  rw [hsort]
  rfl

theorem find?_idx_of_nodup (results : List SearchResult) (r : SearchResult)
    (hnd : (results.map (fun x => x.idx)).Nodup) (hmem : r ∈ results) :
    results.find? (fun x => x.idx = r.idx) = some r := by
  induction results with
  | nil => cases hmem
  | cons p rest ih =>
    rcases List.mem_cons.mp hmem with rfl | hmem'
    · rw [List.find?_cons_of_pos _ (by simp)]
    · simp only [List.map_cons, List.nodup_cons] at hnd
      have hne : ¬ p.idx = r.idx := fun h =>
        hnd.1 (h ▸ List.mem_map.mpr ⟨r, hmem', rfl⟩)
      rw [List.find?_cons_of_neg _ (by simpa using hne)]
      exact ih hnd.2 hmem'

theorem normalizeScores_max_zero (results : List SearchResult)
    (h : maxScoreOf results = 0) (i : ℕ) : normalizeScores results i = 0 := by
  match results with
  | [] => rfl
  | r0 :: rest =>
    simp only [normalizeScores]
    rw [if_pos (by exact h)]

theorem normalizeScores_mem (results : List SearchResult) (r : SearchResult)
    (hnd : (results.map (fun x => x.idx)).Nodup) (hmem : r ∈ results)
    (h : maxScoreOf results ≠ 0) :
    normalizeScores results r.idx = r.score / maxScoreOf results := by
  match results with
  | [] => cases hmem
  | r0 :: rest =>
    simp only [normalizeScores]
    rw [if_neg (by exact h), find?_idx_of_nodup _ r hnd hmem]
    rfl

/-- BM25 results are strictly sorted by (score desc, index desc). -/
theorem searchBm25_pairwise (st : BM25) (query : String) (topK : ℕ) :
    (searchBm25 st query topK).Pairwise
      (fun a b => b.score < a.score ∨ (a.score = b.score ∧ b.idx < a.idx)) := by
  set scores := getScores st (tokenize query) with hscores
  have hunfold : searchBm25 st query topK =
      ((stableAscPerm scores).reverse.take topK).filterMap (fun i =>
        if 0 < scores.getD i 0 then
          some ⟨i, scores.getD i 0, "bm25"⟩ else none) := rfl
  rw [hunfold]
  have htake := (stableAscPerm_reverse_pairwise scores).sublist
    (List.take_sublist topK _)
  refine List.Pairwise.filterMap _ ?_ htake
  rintro a b hab x hx y hy
  by_cases hca : 0 < scores.getD a 0
  · rw [if_pos hca, Option.mem_def] at hx
    obtain rfl := Option.some.inj hx.symm
    by_cases hcb : 0 < scores.getD b 0
    · rw [if_pos hcb, Option.mem_def] at hy
      obtain rfl := Option.some.inj hy.symm
      exact hab
    · rw [if_neg hcb] at hy
      exact absurd hy (by simp)
  · rw [if_neg hca] at hx
    exact absurd hx (by simp)

/-- Every BM25 result has a strictly positive score. -/
theorem searchBm25_mem_pos (st : BM25) (query : String) (topK : ℕ) :
    ∀ r ∈ searchBm25 st query topK, 0 < r.score := by
  set scores := getScores st (tokenize query) with hscores
  have hunfold : searchBm25 st query topK =
      ((stableAscPerm scores).reverse.take topK).filterMap (fun i =>
        if 0 < scores.getD i 0 then
          some ⟨i, scores.getD i 0, "bm25"⟩ else none) := rfl
  intro r hr
  rw [hunfold, List.mem_filterMap] at hr
  obtain ⟨i, _, hf⟩ := hr
  by_cases hc : 0 < scores.getD i 0
  · rw [if_pos hc] at hf
    obtain rfl := Option.some.inj hf
    exact hc
  · rw [if_neg hc] at hf
    cases hf

theorem foldl_max_le_init (l : List ℝ) : ∀ (a : ℝ), a ≤ l.foldl max a := by
  induction l with
  | nil => intro a; exact le_refl a
  | cons x xs ih =>
    intro a
    exact le_trans (le_max_left a x) (ih (max a x))

/-- A nonempty result list with positive scores has a positive maximum. -/
theorem maxScoreOf_pos (results : List SearchResult)
    (hpos : ∀ r ∈ results, 0 < r.score) (hne : results ≠ []) :
    0 < maxScoreOf results := by
  match results with
  | [] => exact absurd rfl hne
  | r0 :: rest =>
    have h0 : 0 < r0.score := hpos r0 (by simp)
    calc (0 : ℝ) < r0.score := h0
      _ ≤ (rest.map (fun r => r.score)).foldl max r0.score := foldl_max_le_init _ _

/-- Truncating the positive-filtered list commutes with truncating the
candidate positions, provided positivity is downward closed along the
list. -/
theorem filterMap_pos_take_comm (scores : List ℝ) (m : String) (L : List ℕ)
    (hmono : L.Pairwise (fun i j => 0 < scores.getD j 0 → 0 < scores.getD i 0)) :
    ∀ k, (L.filterMap (fun i =>
        if 0 < scores.getD i 0 then
          some (⟨i, scores.getD i 0, m⟩ : SearchResult) else none)).take k
      = (L.take k).filterMap (fun i =>
        if 0 < scores.getD i 0 then
          some (⟨i, scores.getD i 0, m⟩ : SearchResult) else none) := by
  induction hmono with
  | nil => intro k; simp
  | @cons a l ha _ ih =>
    intro k
    by_cases hc : 0 < scores.getD a 0
    · rw [List.filterMap_cons, if_pos hc]
      cases k with
      | zero => simp
      | succ k' =>
        rw [List.take_succ_cons, List.take_succ_cons, List.filterMap_cons,
          if_pos hc, ih k']
    · have hall : ∀ j ∈ l, ¬ 0 < scores.getD j 0 := fun j hj hpos => hc (ha j hj hpos)
      rw [List.filterMap_cons, if_neg hc]
      have h1 : l.filterMap (fun i =>
          if 0 < scores.getD i 0 then
            some (⟨i, scores.getD i 0, m⟩ : SearchResult) else none) = [] :=
        List.filterMap_eq_nil_iff.mpr (fun j hj => by rw [if_neg (hall j hj)])
      have h2 : ((a :: l).take k).filterMap (fun i =>
          if 0 < scores.getD i 0 then
            some (⟨i, scores.getD i 0, m⟩ : SearchResult) else none) = [] := by
        apply List.filterMap_eq_nil_iff.mpr
        intro j hj
        have hj' : j ∈ a :: l := (List.take_sublist _ _).subset hj
        rcases List.mem_cons.mp hj' with rfl | hj''
        · rw [if_neg hc]
        · rw [if_neg (hall j hj'')]
      rw [h1, h2, List.take_nil]

/-- The 2 top_k candidate list of search_bm25 truncated to top_k is the
plain top_k call: positives occupy a prefix of the sorted candidates. -/
theorem searchBm25_take (st : BM25) (query : String) (topK : ℕ) :
    (searchBm25 st query (topK * 2)).take topK = searchBm25 st query topK := by
  set scores := getScores st (tokenize query) with hscores
  have hmono : (stableAscPerm scores).reverse.Pairwise
      (fun i j => 0 < scores.getD j 0 → 0 < scores.getD i 0) := by
    refine (stableAscPerm_reverse_pairwise scores).imp ?_
    rintro a b (h | ⟨h, _⟩)
    · intro hb; exact lt_trans hb h
    · intro hb; exact h ▸ hb
  have h1 : searchBm25 st query (topK * 2) =
      ((stableAscPerm scores).reverse.take (topK * 2)).filterMap (fun i =>
        if 0 < scores.getD i 0 then
          some ⟨i, scores.getD i 0, "bm25"⟩ else none) := rfl
  have h2 : searchBm25 st query topK =
      ((stableAscPerm scores).reverse.take topK).filterMap (fun i =>
        if 0 < scores.getD i 0 then
          some ⟨i, scores.getD i 0, "bm25"⟩ else none) := rfl
  rw [h1, h2, ← filterMap_pos_take_comm scores "bm25" _ hmono (topK * 2),
    ← filterMap_pos_take_comm scores "bm25" _ hmono topK, List.take_take]
  congr 1
  omega

/-- Inserting a fresh-keyed batch appends its pairs. -/
theorem foldl_addScore_fresh (g : ℕ → ℝ) (results : List SearchResult) :
    ∀ (acc : List (ℕ × ℝ)), (results.map (fun r => r.idx)).Nodup →
    (∀ r ∈ results, r.idx ∉ acc.map Prod.fst) →
    results.foldl (fun a r => addScore a r.idx (g r.idx)) acc =
      acc ++ results.map (fun r => (r.idx, g r.idx)) := by
  induction results with
  | nil => intro acc _ _; simp
  | cons r rs ih =>
    intro acc hnd hfresh
    simp only [List.foldl_cons]
    have hany : (acc.any (fun p => p.1 = r.idx)) = false := by
      rw [Bool.eq_false_iff]
      intro h
      rw [List.any_eq_true] at h
      obtain ⟨p, hp, hpr⟩ := h
      exact hfresh r (by simp) (List.mem_map.mpr ⟨p, hp, by simpa using hpr⟩)
    have hstep : addScore acc r.idx (g r.idx) = acc ++ [(r.idx, g r.idx)] := by
      unfold addScore
      rw [if_neg (by simp [hany])]
    rw [hstep]
    simp only [List.map_cons, List.nodup_cons] at hnd
    rw [ih (acc ++ [(r.idx, g r.idx)]) hnd.2 ?_]
    · simp
    · intro r' hr'
      rw [List.map_append]
      simp only [List.mem_append]
      rintro (h | h)
      · exact hfresh r' (by simp [hr']) h
      · simp only [List.map_cons, List.map_nil, List.mem_singleton] at h
        exact hnd.1 (h ▸ List.mem_map.mpr ⟨r', hr', rfl⟩)

theorem addScore_of_zero (acc : List (ℕ × ℝ)) (i : ℕ) :
    addScore acc i 0 =
      if (acc.any (fun p => p.1 = i)) = true then acc else acc ++ [(i, 0)] := by
  unfold addScore
  by_cases hany : (acc.any (fun p => p.1 = i)) = true
  · rw [if_pos hany, if_pos hany]
    have hpt : ∀ p ∈ acc, (if p.1 = i then (p.1, p.2 + (0 : ℝ)) else p) = p := by
      intro p _
      by_cases h : p.1 = i
      · rw [if_pos h, add_zero]
      · rw [if_neg h]
    rw [List.map_congr_left hpt]
    simp
  · rw [if_neg hany, if_neg hany]

/-- Folding in a batch at weight zero only appends zero-valued fresh
entries. -/
theorem foldl_addScore_zero (results : List SearchResult) :
    ∀ (acc : List (ℕ × ℝ)),
    ∃ zs, results.foldl (fun a r => addScore a r.idx 0) acc = acc ++ zs ∧
      ∀ z ∈ zs, z.2 = 0 ∧ z.1 ∉ acc.map Prod.fst := by
  induction results with
  | nil => intro acc; exact ⟨[], by simp, by simp⟩
  | cons r rs ih =>
    intro acc
    simp only [List.foldl_cons]
    rw [addScore_of_zero]
    by_cases hany : (acc.any (fun p => p.1 = r.idx)) = true
    · rw [if_pos hany]
      exact ih acc
    · rw [if_neg hany]
      obtain ⟨zs, heq, hz⟩ := ih (acc ++ [(r.idx, 0)])
      refine ⟨(r.idx, 0) :: zs, ?_, ?_⟩
      · rw [heq, List.append_assoc]
        rfl
      · intro z hz'
        rcases List.mem_cons.mp hz' with rfl | hz''
        · refine ⟨rfl, ?_⟩
          intro hmem
          rw [List.mem_map] at hmem
          obtain ⟨p, hp, hpr⟩ := hmem
          have hx : (acc.any (fun p => p.1 = r.idx)) = true :=
            List.any_eq_true.mpr ⟨p, hp, by simpa using hpr⟩
          exact hany hx
        · obtain ⟨h1, h2⟩ := hz z hz''
          refine ⟨h1, fun hmem => h2 ?_⟩
          rw [List.map_append, List.mem_append]
          exact Or.inl hmem

/-! ## Claim theorems -/

/-- C5: segmentation walks the chronologically sorted messages, starts a new
thread exactly when the gap to the predecessor exceeds max_gap_minutes
(that is, the committed runs are the maximal within-gap runs), and commits
a run at each boundary including the end of the stream iff its length is at
least min_messages; the spec example stream {t = 0, 1, 2 min, 10 min gap,
t = 12, 13 min} with max_gap_minutes = 5, min_messages = 2 yields exactly
the run of the first three messages and the run of the trailing two. -/
theorem claim_C5_segmentation :
    (∀ (messages : List Message) (maxGap : ℚ) (minMessages : ℕ),
      findThreadRuns messages maxGap minMessages =
        (gapSplit maxGap (stableSortByAsc (fun m => m.timestamp) messages)).filter
          (fun r => minMessages ≤ r.length)) ∧
    findThreadRuns segMsgs 5 2 =
      [[mkMsg 0 "A" "one", mkMsg 60 "B" "two", mkMsg 120 "A" "three"],
       [mkMsg 720 "B" "four", mkMsg 780 "A" "five"]] := by
  constructor
  · intro messages maxGap minMessages
    unfold findThreadRuns gapSplit
    cases stableSortByAsc (fun m => m.timestamp) messages with
    | nil => simp
    | cons m0 rest => exact segmentAux_eq_filter maxGap minMessages rest m0 [m0]
  · have hsort : stableSortByAsc (fun m => m.timestamp) segMsgs = segMsgs :=
      stableSortByAsc_eq_self _ _ (by decide)
    unfold findThreadRuns
    rw [hsort]
    show segmentAux 5 2 (mkMsg 0 "A" "one")
      [mkMsg 60 "B" "two", mkMsg 120 "A" "three", mkMsg 720 "B" "four",
       mkMsg 780 "A" "five"] [mkMsg 0 "A" "one"] = _
    norm_num [segmentAux, mkMsg]

/-- C6: the engagement score of a thread is
0.4 * alternation + 0.2 * participant factor + 0.2 * message factor
+ 0.2 * length factor, with alternation the number of adjacent pairs with
different senders over message_count - 1 (0 when message_count <= 1); the
sender sequences A,B,A,B and A,A,A have alternation 1 and 0. -/
theorem claim_C6_exchange_score :
    (∀ (chat : Chat) (messages : List Message),
      (scoreThread chat messages).exchangeScore =
        (4/10) * specAlternation messages +
        (2/10) * (((dedupFirst (messages.map (fun m => m.sender))).length : ℚ) /
          (chat.participants.length : ℚ)) +
        (2/10) * min ((messages.length : ℚ) / 50) 1 +
        (2/10) * min ((((messages.map (fun m => m.content.length)).sum : ℚ) /
          (messages.length : ℚ)) / 100) 1) ∧
    specAlternation msgsABAB = 1 ∧ specAlternation msgsAAA = 0 := by
  have e1 : senderChanges msgsABAB = 3 := rfl
  have e2 : senderChanges msgsAAA = 0 := rfl
  have e3 : msgsABAB.length = 4 := rfl
  have e4 : msgsAAA.length = 3 := rfl
  refine ⟨?_, by norm_num [specAlternation, e1, e3], by norm_num [specAlternation, e2, e4]⟩
  intro chat messages
  simp only [scoreThread, specAlternation]
  by_cases h : messages.length ≤ 1
  · have h' : ¬ 0 < messages.length - 1 := by omega
    simp only [if_neg h', if_pos h]
    ring
  · have h' : 0 < messages.length - 1 := by omega
    simp only [if_pos h', if_neg h]
    ring

/-- C7: a pattern that fails to compile does not raise; keyword search
behaves exactly like a literal substring search for the pattern string. -/
theorem claim_C7_invalid_regex (compile : String → Option (String → ℕ))
    (messages : List Message) (pattern : String) (topK : ℕ)
    (h : compile pattern = none) :
    searchKeyword compile messages pattern topK =
      searchKeywordLiteral messages pattern topK := by
  unfold searchKeyword searchKeywordLiteral
  rw [h]

/-- Witness for C7 at the spec input (foo: under an re oracle for which
(foo raises re.error, keyword search equals literal search on a concrete
corpus. -/
theorem claim_C7_witness :
    fooOracle "(foo" = none ∧
    searchKeyword fooOracle keywordMsgs "(foo" 100 =
      searchKeywordLiteral keywordMsgs "(foo" 100 :=
  ⟨rfl, claim_C7_invalid_regex fooOracle keywordMsgs "(foo" 100 rfl⟩

/-- C8 counterexample: constructing the searcher over the empty corpus does
not return an index, it raises: BM25._initialize divides
num_doc / corpus_size with corpus_size = 0 (ZeroDivisionError); so the
claim that no operation, including index construction, raises is false. -/
theorem claim_C8_counterexample :
    searcherInit [] = Except.error "ZeroDivisionError" := rfl

/-- C8 amended: segmentation on an empty corpus returns empty without
error, but search index construction on the empty corpus raises
ZeroDivisionError (inside BM25Okapi), so the search operations are never
reached on an empty corpus. -/
theorem claim_C8_empty_corpus :
    (∀ (participants : List String) (maxGap : ℚ) (minMessages : ℕ),
      findConversationThreads ⟨[], participants⟩ maxGap minMessages = []) ∧
    searcherInit [] = Except.error "ZeroDivisionError" := by
  refine ⟨?_, rfl⟩
  intro ps g n
  simp [findConversationThreads]

/-- C10 amended (the original claim fails at top_k = 0, where the Python
slice [-0:] returns all of the sender messages): for top_k >= 1,
search_by_sender with no query returns the last min(top_k, n) of the
sender messages in corpus order, each with score 1.0 and method filter,
without consulting any index (the result only depends on the message
list). -/
theorem claim_C10_sender_filter (p : Provider)
    (compile : String → Option (String → ℕ)) (s : MessageSearcher)
    (sender : String) (query : Option String) (topK : ℕ)
    (hq : query = none ∨ query = some "") (hk : 1 ≤ topK) :
    searchBySender p compile s sender query topK =
      .ok (((senderEnum s sender).drop ((senderEnum s sender).length - topK)).map
        (fun pr => (⟨pr.1, 1, "filter"⟩ : SearchResult))) ∧
    ((senderEnum s sender).drop ((senderEnum s sender).length - topK)).length =
      min topK (senderEnum s sender).length := by
  constructor
  · unfold searchBySender lastSlice
    rw [if_pos hq, if_neg (by omega)]
  · rw [List.length_drop]
    omega

/-- Witness for C10: three messages, two by Alice, top_k = 1. -/
theorem claim_C10_witness :
    searchBySender noProvider idOracle senderSearcher "Alice" none 1 =
      .ok (((senderEnum senderSearcher "Alice").drop
        ((senderEnum senderSearcher "Alice").length - 1)).map
          (fun pr => (⟨pr.1, 1, "filter"⟩ : SearchResult))) ∧
    ((senderEnum senderSearcher "Alice").drop
      ((senderEnum senderSearcher "Alice").length - 1)).length =
      min 1 (senderEnum senderSearcher "Alice").length :=
  claim_C10_sender_filter noProvider idOracle senderSearcher "Alice" none 1
    (Or.inl rfl) (by omega)

/-- C10 counterexample: at top_k = 0 the claim predicts min(0, 1) = 0
returned messages, but the code returns the whole one-message sender list
(Python lst[-0:] is lst). -/
theorem claim_C10_counterexample :
    (searcherInit [mAlice]).bind
      (fun s => searchBySender noProvider idOracle s "Alice" none 0) =
      Except.ok [⟨0, 1, "filter"⟩] ∧ (1 : ℕ) ≠ min 0 1 := by
  exact ⟨rfl, by omega⟩

/-- C9: for a nonempty thread whose senders all belong to the corpus
participant list, the exchange score lies in [0, 1]: each factor lies in
[0, 1] and the weights 0.4, 0.2, 0.2, 0.2 sum to 1. -/
theorem claim_C9_score_in_unit_interval (chat : Chat) (messages : List Message)
    (hne : messages ≠ [])
    (hsub : ∀ m ∈ messages, m.sender ∈ chat.participants) :
    0 ≤ (scoreThread chat messages).exchangeScore ∧
      (scoreThread chat messages).exchangeScore ≤ 1 := by
  obtain ⟨m0, hm0⟩ := List.exists_mem_of_ne_nil messages hne
  have hpartne : chat.participants.length ≠ 0 := by
    intro h0
    rw [List.length_eq_zero] at h0
    have := hsub m0 hm0
    simp [h0] at this
  have hpartpos : (0 : ℚ) < (chat.participants.length : ℚ) := by
    exact_mod_cast Nat.pos_of_ne_zero hpartne
  have hA : 0 ≤ (if 0 < messages.length - 1 then
      (senderChanges messages : ℚ) / ((messages.length - 1 : ℕ) : ℚ) else 0) ∧
      (if 0 < messages.length - 1 then
      (senderChanges messages : ℚ) / ((messages.length - 1 : ℕ) : ℚ) else 0) ≤ 1 := by
    by_cases h : 0 < messages.length - 1
    · rw [if_pos h]
      have hd : (0 : ℚ) < ((messages.length - 1 : ℕ) : ℚ) := by exact_mod_cast h
      constructor
      · exact div_nonneg (Nat.cast_nonneg _) (le_of_lt hd)
      · rw [div_le_one hd]
        exact_mod_cast senderChanges_le messages
    · rw [if_neg h]
      exact ⟨le_refl 0, zero_le_one⟩
  have hPle : ((dedupFirst (messages.map (fun m => m.sender))).length : ℚ) ≤
      (chat.participants.length : ℚ) := by
    have hsub' : ∀ x ∈ dedupFirst (messages.map (fun m => m.sender)),
        x ∈ chat.participants := by
      intro x hx
      rw [mem_dedupFirst] at hx
      obtain ⟨m, hm, rfl⟩ := List.mem_map.mp hx
      exact hsub m hm
    exact_mod_cast nodup_subset_length_le (dedupFirst_nodup _) hsub'
  have hP : 0 ≤ ((dedupFirst (messages.map (fun m => m.sender))).length : ℚ) /
      (chat.participants.length : ℚ) ∧
      ((dedupFirst (messages.map (fun m => m.sender))).length : ℚ) /
      (chat.participants.length : ℚ) ≤ 1 := by
    constructor
    · exact div_nonneg (Nat.cast_nonneg _) (le_of_lt hpartpos)
    · rw [div_le_one hpartpos]
      exact hPle
  have hM : 0 ≤ min ((messages.length : ℚ) / 50) 1 ∧
      min ((messages.length : ℚ) / 50) 1 ≤ 1 := by
    constructor
    · exact le_min (div_nonneg (Nat.cast_nonneg _) (by norm_num)) zero_le_one
    · exact min_le_right _ _
  have hL : 0 ≤ min ((((messages.map (fun m => m.content.length)).sum : ℚ) /
        (messages.length : ℚ)) / 100) 1 ∧
      min ((((messages.map (fun m => m.content.length)).sum : ℚ) /
        (messages.length : ℚ)) / 100) 1 ≤ 1 := by
    constructor
    · refine le_min (div_nonneg (div_nonneg ?_ (Nat.cast_nonneg _)) (by norm_num)) zero_le_one
      apply List.sum_nonneg
      intro x hx
      obtain ⟨m, _, rfl⟩ := List.mem_map.mp hx
      exact Nat.cast_nonneg _
    · exact min_le_right _ _
  rw [scoreThread_exchangeScore]
  constructor
  · linarith [hA.1, hP.1, hM.1, hL.1]
  · linarith [hA.2, hP.2, hM.2, hL.2]

/-- Witness for C9 at the concrete thread with senders A,B,A,B in a chat
with participants A and B. -/
theorem claim_C9_witness :
    0 ≤ (scoreThread chatAB msgsABAB).exchangeScore ∧
      (scoreThread chatAB msgsABAB).exchangeScore ≤ 1 :=
  claim_C9_score_in_unit_interval chatAB msgsABAB (by decide) (by decide)


/-- C1 amended: if the embedding cache is not yet built and the batched
embedding call fails, search_hybrid fails with that provider error
(search_semantic has no handler and search_hybrid none either); the lexical
and keyword contributions are not returned. -/
theorem claim_C1_provider_failure (p : Provider)
    (compile : String → Option (String → ℕ)) (s : MessageSearcher)
    (query : String) (topK : ℕ) (w1 w2 w3 : ℝ) (e : String)
    (hemb : s.embeddings = none)
    (hfail : p.embedBatch (s.messages.map (fun m => m.content)) = .error e) :
    searchHybrid p compile s query topK w1 w2 w3 = .error e := by
  simp only [searchHybrid, searchSemantic, computeEmbeddings, hemb, hfail]

/-- Witness for C1 amended: a concrete searcher with an unbuilt cache and a
failing provider. -/
theorem claim_C1_witness :
    failSearcher.embeddings = none ∧
    noProvider.embedBatch (failSearcher.messages.map (fun m => m.content)) =
      .error "ConnectionError" ∧
    searchHybrid noProvider idOracle failSearcher "cat" 10 (3/10) (5/10) (2/10) =
      .error "ConnectionError" :=
  ⟨rfl, rfl,
    claim_C1_provider_failure noProvider idOracle failSearcher "cat" 10
      (3/10) (5/10) (2/10) "ConnectionError" rfl rfl⟩

/-- C1 counterexample: on a concrete corpus whose keyword method has two
candidates, a failing provider makes the whole hybrid search fail instead
of returning the lexical and keyword contributions. -/
theorem claim_C1_counterexample :
    (searcherInit corpus3).bind
      (fun s => searchHybrid noProvider idOracle s "cat" 10 (3/10) (5/10) (2/10)) =
      Except.error "ConnectionError" ∧
    (searchKeyword idOracle corpus3 "cat" 20).length = 2 := by
  constructor
  · rfl
  · simp only [searchKeyword]
    rw [List.length_take, stableSortByDesc_length]
    decide

/-- C2 amended: lexical search returns at most top_k results, all scores
strictly positive (each being the BM25 score of the returned document),
sorted by score descending; when the corpus has fewer than 16 documents
(the regime in which numpy argsort is a stable insertion sort) ties are
broken by REVERSE corpus order, since the code reverses the ascending
argsort, while on larger corpora the unstable quicksort argsort leaves the
order of equal scores unspecified; the result is empty when the query
tokenizes to nothing or no document scores positively. -/
theorem claim_C2_lexical_contract (st : BM25) (query : String) (topK : ℕ) :
    (searchBm25 st query topK).length ≤ topK ∧
    (∀ r ∈ searchBm25 st query topK,
      0 < r.score ∧ r.score = (getScores st (tokenize query)).getD r.idx 0) ∧
    (searchBm25 st query topK).Pairwise (fun a b => b.score ≤ a.score) ∧
    (st.corpusSize < 16 →
      (searchBm25 st query topK).Pairwise
        (fun a b => b.score < a.score ∨ (a.score = b.score ∧ b.idx < a.idx))) ∧
    (tokenize query = [] → searchBm25 st query topK = []) ∧
    ((∀ x ∈ getScores st (tokenize query), x ≤ 0) →
      searchBm25 st query topK = []) := by
  set scores := getScores st (tokenize query) with hscoresdef
  have hunfold : searchBm25 st query topK =
      ((stableAscPerm scores).reverse.take topK).filterMap (fun i =>
        if 0 < scores.getD i 0 then
          some ⟨i, scores.getD i 0, "bm25"⟩ else none) := rfl
  have hstrict : (searchBm25 st query topK).Pairwise
      (fun a b => b.score < a.score ∨ (a.score = b.score ∧ b.idx < a.idx)) := by
    rw [hunfold]
    have htake := (stableAscPerm_reverse_pairwise scores).sublist
      (List.take_sublist topK _)
    refine List.Pairwise.filterMap _ ?_ htake
    rintro a b hab x hx y hy
    by_cases hca : 0 < scores.getD a 0
    · rw [if_pos hca, Option.mem_def] at hx
      obtain rfl := Option.some.inj hx.symm
      by_cases hcb : 0 < scores.getD b 0
      · rw [if_pos hcb, Option.mem_def] at hy
        obtain rfl := Option.some.inj hy.symm
        exact hab
      · rw [if_neg hcb] at hy
        exact absurd hy (by simp)
    · rw [if_neg hca] at hx
      exact absurd hx (by simp)
  refine ⟨?_, ?_, ?_, fun _ => hstrict, ?_, ?_⟩
  · rw [hunfold]
    refine le_trans (List.length_filterMap_le _ _) ?_
    rw [List.length_take]
    exact min_le_left _ _
  · intro r hr
    rw [hunfold, List.mem_filterMap] at hr
    obtain ⟨i, _, hf⟩ := hr
    by_cases hc : 0 < scores.getD i 0
    · rw [if_pos hc] at hf
      obtain rfl := Option.some.inj hf
      exact ⟨hc, rfl⟩
    · rw [if_neg hc] at hf
      exact absurd hf (by simp)
  · refine hstrict.imp ?_
    rintro a b (h | ⟨h, _⟩)
    · exact le_of_lt h
    · exact le_of_eq h.symm
  · intro htok
    rw [hunfold]
    have hz : scores = (List.range st.corpusSize).map (fun _ => (0 : ℝ)) := by
      rw [hscoresdef, htok]
      rfl
    rw [List.filterMap_eq_nil_iff]
    intro i _
    have hzi : ¬ 0 < scores.getD i 0 := by
      rw [hz, getD_map_zero]
      exact lt_irrefl 0
    rw [if_neg hzi]
  · intro hle
    rw [hunfold, List.filterMap_eq_nil_iff]
    intro i _
    have hzi : ¬ 0 < scores.getD i 0 := by
      rcases lt_or_ge i scores.length with h | h
      · have hmem : scores.getD i 0 ∈ scores := by
          rw [List.getD_eq_getElem?_getD, List.getElem?_eq_getElem h]
          exact List.getElem_mem h
        exact not_lt.mpr (hle _ hmem)
      · rw [List.getD_eq_default _ _ h]
        exact lt_irrefl 0
    rw [if_neg hzi]

/-- C2 counterexample: over corpus5 the two apple pie documents score
equally for the query apple, and BM25 search returns document 1 before
document 0: ties are not broken by original corpus order. -/
theorem claim_C2_counterexample :
    bm25Init docs5 = .ok st5 ∧
    searchBm25 st5 "apple" 10 = [⟨1, s5, "bm25"⟩, ⟨0, s5, "bm25"⟩] ∧
    ¬ (searchBm25 st5 "apple" 10).Pairwise
        (fun a b => b.score < a.score ∨ (a.score = b.score ∧ a.idx < b.idx)) := by
  refine ⟨bm25Init_docs5, searchBm25_st5, ?_⟩
  rw [searchBm25_st5]
  intro h
  have hrel := (List.pairwise_cons.mp h).1 ⟨0, s5, "bm25"⟩ (by simp)
  rcases hrel with h1 | ⟨_, h2⟩
  · exact lt_irrefl s5 h1
  · exact absurd h2 (by decide)

/-- Witness for C2 amended: the five document corpus is below the 16
element stability cutoff, so the reverse corpus order tie conjunct of the
contract applies to it. -/
theorem claim_C2_witness :
    st5.corpusSize < 16 ∧
    (searchBm25 st5 "apple" 10).Pairwise
      (fun a b => b.score < a.score ∨ (a.score = b.score ∧ b.idx < a.idx)) :=
  ⟨by decide, (claim_C2_lexical_contract st5 "apple" 10).2.2.2.1 (by decide)⟩


/-- C3 amended: hybrid search normalizes each method candidate list by its
maximum score (contributing nothing when the list is empty or its max is
0), accumulates per distinct message the weighted sum of normalized scores
over the three methods, and returns the top_k sorted by accumulated score
descending; ties are broken by the order of first insertion into the
accumulator (bm25 candidates first, then semantic, then keyword, each in
rank order), NOT by corpus order. -/
theorem claim_C3_hybrid_contract (p : Provider)
    (compile : String → Option (String → ℕ)) (s : MessageSearcher)
    (query : String) (topK : ℕ) (w1 w2 w3 : ℝ)
    (s' : MessageSearcher) (semResults : List SearchResult)
    (hsem : searchSemantic p s query (topK * 2) = .ok (s', semResults)) :
    (∀ (results : List SearchResult) (i : ℕ),
      results = [] ∨ maxScoreOf results = 0 → normalizeScores results i = 0) ∧
    (∀ (results : List SearchResult) (r : SearchResult),
      (results.map (fun x => x.idx)).Nodup → r ∈ results →
      maxScoreOf results ≠ 0 →
        normalizeScores results r.idx = r.score / maxScoreOf results) ∧
    ∃ res, searchHybrid p compile s query topK w1 w2 w3 = .ok res ∧
      res.length ≤ topK ∧
      res.Pairwise (fun a b => b.score ≤ a.score) ∧
      (∀ r ∈ res, r.method = "hybrid" ∧
        r.score =
          normalizeScores (searchBm25 s.bm25 query (topK * 2)) r.idx * w1 +
          normalizeScores semResults r.idx * w2 +
          normalizeScores (searchKeyword compile s.messages query (topK * 2)) r.idx * w3) := by
  refine ⟨?_, ?_, ?_⟩
  · intro results i h
    rcases h with rfl | hmax
    · rfl
    · exact normalizeScores_max_zero results hmax i
  · intro results r hnd hmem hmax
    exact normalizeScores_mem results r hnd hmem hmax
  set B := searchBm25 s.bm25 query (topK * 2) with hB
  set K := searchKeyword compile s.messages query (topK * 2) with hK
  have hBnd := searchBm25_idx_nodup s.bm25 query (topK * 2)
  have hSnd := searchSemantic_idx_nodup p s query (topK * 2) s' semResults hsem
  have hKnd := searchKeyword_idx_nodup compile s.messages query (topK * 2)
  rw [← hB] at hBnd
  rw [← hK] at hKnd
  set acc := accumScores
    [(B, normalizeScores B, w1), (semResults, normalizeScores semResults, w2),
     (K, normalizeScores K, w3)] with hacc
  have hunfold : searchHybrid p compile s query topK w1 w2 w3 =
      .ok (((stableSortByDesc (fun pr => pr.2) acc).take topK).map
        (fun pr => ⟨pr.1, pr.2, "hybrid"⟩)) := by
    unfold searchHybrid
    rw [hsem]
  refine ⟨_, hunfold, ?_, ?_, ?_⟩
  · rw [List.length_map, List.length_take]
    exact min_le_left _ _
  · have hp := stableSortByDesc_pairwise (fun pr : ℕ × ℝ => pr.2) acc
    have hp2 := hp.sublist (List.take_sublist topK _)
    exact List.Pairwise.map _ (fun a b h => h) hp2
  · intro r hr
    rw [List.mem_map] at hr
    obtain ⟨pr, hpr, rfl⟩ := hr
    refine ⟨rfl, ?_⟩
    have hpr' : pr ∈ stableSortByDesc (fun pr : ℕ × ℝ => pr.2) acc :=
      (List.take_sublist _ _).subset hpr
    have hpracc : pr ∈ acc := (stableSortByDesc_perm _ _).subset hpr'
    have hnd0 : (([] : List (ℕ × ℝ)).map Prod.fst).Nodup := by simp
    have hnd1 := foldl_addScore_keys_nodup
      (fun i => normalizeScores B i * w1) B [] hnd0
    have hnd2 := foldl_addScore_keys_nodup
      (fun i => normalizeScores semResults i * w2) semResults _ hnd1
    have hnd3 := foldl_addScore_keys_nodup
      (fun i => normalizeScores K i * w3) K _ hnd2
    have haccnd : (acc.map Prod.fst).Nodup := hnd3
    have hval := mem_lookupAcc acc pr haccnd hpracc
    have hsum : lookupAcc acc pr.1 =
        normalizeScores B pr.1 * w1 + normalizeScores semResults pr.1 * w2 +
          normalizeScores K pr.1 * w3 := by
      show lookupAcc (K.foldl
          (fun a r => addScore a r.idx (normalizeScores K r.idx * w3))
          (semResults.foldl
            (fun a r => addScore a r.idx (normalizeScores semResults r.idx * w2))
            (B.foldl
              (fun a r => addScore a r.idx (normalizeScores B r.idx * w1)) []))) pr.1 = _
      rw [lookupAcc_foldl_norm K w3 hKnd, lookupAcc_foldl_norm semResults w2 hSnd,
        lookupAcc_foldl_norm B w1 hBnd]
      have h0 : lookupAcc [] pr.1 = 0 := rfl
      rw [h0]
      ring
    show pr.2 = _
    rw [← hval, hsum]

/-- Witness for C3 at the corpus3 scenario with the zero provider. -/
theorem claim_C3_witness :
    (∀ (results : List SearchResult) (i : ℕ),
      results = [] ∨ maxScoreOf results = 0 → normalizeScores results i = 0) ∧
    (∀ (results : List SearchResult) (r : SearchResult),
      (results.map (fun x => x.idx)).Nodup → r ∈ results →
      maxScoreOf results ≠ 0 →
        normalizeScores results r.idx = r.score / maxScoreOf results) ∧
    ∃ res, searchHybrid zeroProvider idOracle searcher3 "cat" 10 1 0 0 = .ok res ∧
      res.length ≤ 10 ∧
      res.Pairwise (fun a b => b.score ≤ a.score) ∧
      (∀ r ∈ res, r.method = "hybrid" ∧
        r.score =
          normalizeScores (searchBm25 searcher3.bm25 "cat" (10 * 2)) r.idx * 1 +
          normalizeScores [] r.idx * 0 +
          normalizeScores (searchKeyword idOracle searcher3.messages "cat" (10 * 2)) r.idx * 0) :=
  claim_C3_hybrid_contract zeroProvider idOracle searcher3 "cat" 10 1 0 0
    searcher3e [] semantic3

/-- C3 counterexample: over corpus3 with weights (1, 0, 0) the two fused
results tie at accumulated score 0 and come back as message 2 before
message 0: ties are broken by insertion order (keyword rank order), not by
corpus order. -/
theorem claim_C3_counterexample :
    searcherInit corpus3 = .ok searcher3 ∧
    searchHybrid zeroProvider idOracle searcher3 "cat" 10 1 0 0 =
      .ok [⟨2, 0, "hybrid"⟩, ⟨0, 0, "hybrid"⟩] ∧
    ¬ ([(⟨2, 0, "hybrid"⟩ : SearchResult), ⟨0, 0, "hybrid"⟩].Pairwise
        (fun a b => b.score < a.score ∨ (a.score = b.score ∧ a.idx < b.idx))) := by
  refine ⟨searcherInit_corpus3, hybrid3, ?_⟩
  intro h
  have hrel := (List.pairwise_cons.mp h).1 ⟨0, 0, "hybrid"⟩ (by simp)
  rcases hrel with h1 | ⟨_, h2⟩
  · exact lt_irrefl (0 : ℝ) h1
  · exact absurd h2 (by decide)


/-- C4 amended: hybrid search with weights (1, 0, 0) returns plain lexical
search ranking among its positive-score results (same messages, same
order); messages discovered only by the semantic or keyword methods may
additionally appear after them, carrying fused score 0 (they enter the
accumulator with weight 0). -/
theorem claim_C4_lexical_only_weights (p : Provider)
    (compile : String → Option (String → ℕ)) (s : MessageSearcher)
    (query : String) (topK : ℕ)
    (s' : MessageSearcher) (semResults : List SearchResult)
    (hsem : searchSemantic p s query (topK * 2) = .ok (s', semResults)) :
    ∃ res, searchHybrid p compile s query topK 1 0 0 = .ok res ∧
      (res.filter (fun r => decide (0 < r.score))).map (fun r => r.idx) =
        (searchBm25 s.bm25 query topK).map (fun r => r.idx) ∧
      (∀ r ∈ res, 0 < r.score ∨ (r.score = 0 ∧
        r.idx ∉ (searchBm25 s.bm25 query (topK * 2)).map (fun r => r.idx))) := by
  set B := searchBm25 s.bm25 query (topK * 2) with hB
  set K := searchKeyword compile s.messages query (topK * 2) with hK
  have hBnd := searchBm25_idx_nodup s.bm25 query (topK * 2)
  rw [← hB] at hBnd
  have hBpos : ∀ r ∈ B, 0 < r.score := by
    rw [hB]
    exact searchBm25_mem_pos s.bm25 query (topK * 2)
  have hBsorted : B.Pairwise
      (fun a b => b.score < a.score ∨ (a.score = b.score ∧ b.idx < a.idx)) := by
    rw [hB]
    exact searchBm25_pairwise s.bm25 query (topK * 2)
  have hunfold : searchHybrid p compile s query topK 1 0 0 =
      .ok (((stableSortByDesc (fun pr => pr.2)
        (accumScores [(B, normalizeScores B, 1),
          (semResults, normalizeScores semResults, 0),
          (K, normalizeScores K, 0)])).take topK).map
        (fun pr => ⟨pr.1, pr.2, "hybrid"⟩)) := by
    unfold searchHybrid
    rw [hsem]
  set accB := B.map (fun r => (r.idx, normalizeScores B r.idx * 1)) with haccBdef
  have haccB : B.foldl
      (fun a r => addScore a r.idx (normalizeScores B r.idx * 1)) [] = accB := by
    rw [haccBdef]
    have h := foldl_addScore_fresh (fun i => normalizeScores B i * 1) B [] hBnd
      (by simp)
    simpa using h
  have hchain : accumScores [(B, normalizeScores B, 1),
      (semResults, normalizeScores semResults, 0), (K, normalizeScores K, 0)] =
      K.foldl (fun a r => addScore a r.idx 0)
        (semResults.foldl (fun a r => addScore a r.idx 0) accB) := by
    show K.foldl (fun a r => addScore a r.idx (normalizeScores K r.idx * 0))
      (semResults.foldl
        (fun a r => addScore a r.idx (normalizeScores semResults r.idx * 0))
        (B.foldl (fun a r => addScore a r.idx (normalizeScores B r.idx * 1)) [])) = _
    rw [haccB]
    simp only [mul_zero]
  obtain ⟨zsS, heqS, hzS⟩ := foldl_addScore_zero semResults accB
  obtain ⟨zsK, heqK, hzK⟩ := foldl_addScore_zero K (accB ++ zsS)
  have haccfull : accumScores [(B, normalizeScores B, 1),
      (semResults, normalizeScores semResults, 0), (K, normalizeScores K, 0)] =
      accB ++ (zsS ++ zsK) := by
    rw [hchain, heqS, heqK, List.append_assoc]
  have hzs : ∀ z ∈ zsS ++ zsK, z.2 = 0 ∧ z.1 ∉ accB.map Prod.fst := by
    intro z hz
    rcases List.mem_append.mp hz with h | h
    · exact hzS z h
    · obtain ⟨h1, h2⟩ := hzK z h
      refine ⟨h1, fun hmem => h2 ?_⟩
      rw [List.map_append, List.mem_append]
      exact Or.inl hmem
  have haccBpos : ∀ pr ∈ accB, 0 < pr.2 := by
    intro pr hpr
    rw [haccBdef, List.mem_map] at hpr
    obtain ⟨r, hr, rfl⟩ := hpr
    have hne : B ≠ [] := by
      intro h
      rw [h] at hr
      cases hr
    have hmax : 0 < maxScoreOf B := maxScoreOf_pos B hBpos hne
    rw [normalizeScores_mem B r hBnd hr (ne_of_gt hmax), mul_one]
    exact div_pos (hBpos r hr) hmax
  have haccBsorted : accB.Pairwise (fun a b => b.2 ≤ a.2) := by
    rw [haccBdef]
    have hBw := List.Pairwise.and_mem.mp hBsorted
    refine List.Pairwise.map _ ?_ hBw
    rintro a b ⟨ha, hb, hab⟩
    have hne : B ≠ [] := by
      intro h
      rw [h] at ha
      cases ha
    have hmax : 0 < maxScoreOf B := maxScoreOf_pos B hBpos hne
    show normalizeScores B b.idx * 1 ≤ normalizeScores B a.idx * 1
    rw [normalizeScores_mem B a hBnd ha (ne_of_gt hmax),
      normalizeScores_mem B b hBnd hb (ne_of_gt hmax), mul_one, mul_one]
    rw [div_le_div_iff_of_pos_right hmax]
    rcases hab with h | ⟨h, _⟩
    · exact le_of_lt h
    · exact le_of_eq h.symm
  have haccsorted : (accB ++ (zsS ++ zsK)).Pairwise (fun a b => b.2 ≤ a.2) := by
    rw [List.pairwise_append]
    refine ⟨haccBsorted, ?_, ?_⟩
    · apply List.pairwise_of_forall_mem_list
      intro a ha b hb
      rw [(hzs b hb).1, (hzs a ha).1]
    · intro a ha b hb
      rw [(hzs b hb).1]
      exact le_of_lt (haccBpos a ha)
  have hsorteq : stableSortByDesc (fun pr : ℕ × ℝ => pr.2) (accB ++ (zsS ++ zsK)) =
      accB ++ (zsS ++ zsK) := stableSortByDesc_eq_self _ _ haccsorted
  refine ⟨(((accB ++ (zsS ++ zsK)).take topK).map
    (fun pr => (⟨pr.1, pr.2, "hybrid"⟩ : SearchResult))), ?_, ?_, ?_⟩
  · rw [hunfold, haccfull, hsorteq]
  · rw [List.filter_map, List.map_map, List.take_append_eq_append_take,
      List.filter_append]
    have hpart1 : ((accB.take topK).filter
        ((fun r => decide (0 < SearchResult.score r)) ∘
          (fun pr => (⟨pr.1, pr.2, "hybrid"⟩ : SearchResult)))) = accB.take topK := by
      rw [List.filter_eq_self]
      intro pr hpr
      have : pr ∈ accB := (List.take_sublist _ _).subset hpr
      simpa using haccBpos pr this
    have hpart2 : (((zsS ++ zsK).take (topK - accB.length)).filter
        ((fun r => decide (0 < SearchResult.score r)) ∘
          (fun pr => (⟨pr.1, pr.2, "hybrid"⟩ : SearchResult)))) = [] := by
      rw [List.filter_eq_nil_iff]
      intro z hz
      have hmem : z ∈ zsS ++ zsK := (List.take_sublist _ _).subset hz
      simp only [Function.comp]
      rw [decide_eq_true_eq]
      intro hpos
      rw [(hzs z hmem).1] at hpos
      exact lt_irrefl 0 hpos
    rw [hpart1, hpart2, List.append_nil]
    have hBtake : B.take topK = searchBm25 s.bm25 query topK := by
      rw [hB]
      exact searchBm25_take s.bm25 query topK
    rw [haccBdef, ← List.map_take, List.map_map, hBtake]
    rfl
  · intro r hr
    rw [List.mem_map] at hr
    obtain ⟨pr, hpr, rfl⟩ := hr
    have hmem : pr ∈ accB ++ (zsS ++ zsK) := (List.take_sublist _ _).subset hpr
    rcases List.mem_append.mp hmem with h | h
    · exact Or.inl (haccBpos pr h)
    · refine Or.inr ⟨(hzs pr h).1, ?_⟩
      have hkeys : accB.map Prod.fst = B.map (fun r => r.idx) := by
        rw [haccBdef, List.map_map]
        rfl
      have := (hzs pr h).2
      rw [hkeys] at this
      simpa using this

/-- Witness for C4 at the corpus3 scenario with the zero provider. -/
theorem claim_C4_witness :
    ∃ res, searchHybrid zeroProvider idOracle searcher3 "cat" 10 1 0 0 = .ok res ∧
      (res.filter (fun r => decide (0 < r.score))).map (fun r => r.idx) =
        (searchBm25 searcher3.bm25 "cat" 10).map (fun r => r.idx) ∧
      (∀ r ∈ res, 0 < r.score ∨ (r.score = 0 ∧
        r.idx ∉ (searchBm25 searcher3.bm25 "cat" (10 * 2)).map (fun r => r.idx))) :=
  claim_C4_lexical_only_weights zeroProvider idOracle searcher3 "cat" 10
    searcher3e [] semantic3

/-- C4 counterexample: over corpus3, lexical search for cat returns nothing
(the idf of cat floors to 0), yet hybrid search with weights (1, 0, 0)
returns the two keyword candidates with fused score 0: the fused output is
not the lexical ranking. -/
theorem claim_C4_counterexample :
    searcherInit corpus3 = .ok searcher3 ∧
    searchBm25 searcher3.bm25 "cat" 10 = [] ∧
    searchHybrid zeroProvider idOracle searcher3 "cat" 10 1 0 0 =
      .ok [⟨2, 0, "hybrid"⟩, ⟨0, 0, "hybrid"⟩] ∧
    ([(⟨2, (0 : ℝ), "hybrid"⟩ : SearchResult), ⟨0, 0, "hybrid"⟩] :
      List SearchResult) ≠ [] := by
  refine ⟨searcherInit_corpus3, searchBm25_st3 10, hybrid3, by simp⟩

end WhatsappWrapped
